import Mathlib

/-!
Verification development for the document-processing pipeline
(src/processing/parser.py and src/processing/utils.py).

Texts are modelled as lists of characters.  EmbeddingPreprocessor.chunk_text
calls Python's textwrap.wrap with default options, so the relevant part of
CPython's textwrap (default TextWrapper configuration: expand_tabs,
replace_whitespace, break_long_words, break_on_hyphens, drop_whitespace all
true/default, tabsize 8, no indents, max_lines None) is embedded here as
total executable functions.  Character classes (\w etc.) are the ASCII
fragment of the Python definitions; every concrete input considered below is
ASCII, where the two coincide.
-/

namespace NV

/-- Whitespace set of Python's textwrap (the string _whitespace). -/
def isPyWS (c : Char) : Bool :=
  c = '\t' || c = '\n' || c = '\x0b' || c = '\x0c' || c = '\r' || c = ' '

/-- Characters stripped by Python str.strip(): ASCII whitespace plus the
Unicode whitespace code points. -/
def isStripWS (c : Char) : Bool :=
  isPyWS c || c = '\x1c' || c = '\x1d' || c = '\x1e' || c = '\x1f' ||
  c = '\x85' || c = '\u00A0' || c = '\u1680' || c = '\u2000' ||
  c = '\u2001' || c = '\u2002' || c = '\u2003' || c = '\u2004' ||
  c = '\u2005' || c = '\u2006' || c = '\u2007' || c = '\u2008' ||
  c = '\u2009' || c = '\u200A' || c = '\u2028' || c = '\u2029' ||
  c = '\u202F' || c = '\u205F' || c = '\u3000'

/-- Python str.expandtabs(8): replace each tab by spaces up to the next
multiple-of-8 column; the column counter resets after a newline or carriage
return. -/
def expandTabsGo : List Char → Nat → List Char
  | [], _ => []
  | c :: rest, col =>
    if c = '\t' then
      let pad := 8 - col % 8
      List.replicate pad ' ' ++ expandTabsGo rest (col + pad)
    else if c = '\n' || c = '\r' then c :: expandTabsGo rest 0
    else c :: expandTabsGo rest (col + 1)

/-- Replacement step of textwrap._munge_whitespace: every textwrap
whitespace character becomes a plain space. -/
def replaceWS (s : List Char) : List Char :=
  s.map (fun c => if isPyWS c then ' ' else c)

/-- Model of textwrap._munge_whitespace with the default configuration. -/
def munge (s : List Char) : List Char :=
  replaceWS (expandTabsGo s 0)

/-- ASCII fragment of the regex class \w. -/
def isWordC (c : Char) : Bool := c.isAlphanum || c = '_'

/-- ASCII fragment of textwrap's letter class [^\d\W]. -/
def isLetterC (c : Char) : Bool := isWordC c && !c.isDigit

/-- Word-punctuation class of textwrap's wordsep regex. -/
def isWP (c : Char) : Bool :=
  isWordC c || c = '!' || c = '"' || c = '\'' || c = '&' || c = '.' ||
  c = ',' || c = '?'

/-- Length of the run of hyphens at the head of the list. -/
def hyphenRunLen : List Char → Nat
  | '-' :: rest => hyphenRunLen rest + 1
  | _ => 0

/-- Lookahead of the em-dash alternatives of the wordsep regex: two or more
hyphens followed by a word character. -/
def emDashAhead (rest : List Char) : Bool :=
  let n := hyphenRunLen rest
  2 ≤ n &&
    (match rest.drop n with
     | w :: _ => isWordC w
     | [] => false)

/-- Lookbehind of the hyphenated-word alternative: the characters before the
hyphen (most recent first) end in letter-letter or letter-hyphen-letter. -/
def lookBeforeHyphen : List Char → Bool
  | y :: '-' :: x :: _ => isLetterC y && isLetterC x
  | y :: x :: _ => isLetterC y && isLetterC x
  | _ => false

/-- Lookahead of the hyphenated-word alternative: letter, optional hyphen,
letter. -/
def lookAfterHyphen : List Char → Bool
  | a :: '-' :: rest =>
    isLetterC a &&
      (match rest with
       | b :: _ => isLetterC b
       | [] => false)
  | a :: b :: _ => isLetterC a && isLetterC b
  | _ => false

/-- Scan of one word chunk of the wordsep regex (the non-greedy nws+?
alternative): prevRev is the already-scanned text before the chunk, reversed;
accRev the consumed chunk characters, reversed.  Returns the chunk and the
remaining text. -/
def wordScanGo (prevRev accRev : List Char) : List Char → List Char × List Char
  | [] => (accRev.reverse, [])
  | c :: rest =>
    if isPyWS c then (accRev.reverse, c :: rest)
    else if c = '-' && lookBeforeHyphen (accRev ++ prevRev) && lookAfterHyphen rest then
      (accRev.reverse ++ ['-'], rest)
    else if (match accRev with
             | p :: _ => isWP p
             | [] => false) && emDashAhead (c :: rest) then
      (accRev.reverse, c :: rest)
    else wordScanGo prevRev (c :: accRev) rest

/-- Fuelled scan of textwrap's wordsep_re.split (nonempty matches only):
whitespace runs, em-dashes between words, and words possibly broken after
hyphens.  Any fuel of at least the text length is enough. -/
def splitGoF : Nat → List Char → List Char → List (List Char)
  | 0, _, _ => []
  | _ + 1, _, [] => []
  | fuel + 1, prevRev, c :: rest =>
    if isPyWS c then
      let run := (c :: rest).takeWhile isPyWS
      run :: splitGoF fuel (run.reverse ++ prevRev) ((c :: rest).drop run.length)
    else if (match prevRev with
             | p :: _ => isWP p
             | [] => false) && emDashAhead (c :: rest) then
      let run := (c :: rest).takeWhile (fun x => x = '-')
      run :: splitGoF fuel (run.reverse ++ prevRev) ((c :: rest).drop run.length)
    else
      let pr := wordScanGo prevRev [c] rest
      pr.1 :: splitGoF fuel (pr.1.reverse ++ prevRev) pr.2

/-- Model of textwrap._split on munged text. -/
def splitChunks (s : List Char) : List (List Char) :=
  splitGoF (s.length + 1) [] s

/-- Sum of the lengths of a list of chunks. -/
def sumLen (l : List (List Char)) : Nat :=
  (l.map List.length).sum

/-- Test used by textwrap for dropping whitespace chunks: chunk.strip() is
empty. -/
def isBlankChunk (c : List Char) : Bool := c.all isStripWS

/-- Greedy inner loop of _wrap_chunks: move chunks onto the current line while
they fit in the width.  Returns the taken chunks and the remainder. -/
def takeGreedy (w curLen : Nat) : List (List Char) → List (List Char) × List (List Char)
  | [] => ([], [])
  | c :: rest =>
    if curLen + c.length ≤ w then
      let pr := takeGreedy w (curLen + c.length) rest
      (c :: pr.1, pr.2)
    else ([], c :: rest)

/-- Python str.rfind of a hyphen over the first bound characters. -/
def rfindHyphenGo : List Char → Nat → Nat → Option Nat → Option Nat
  | [], _, _, acc => acc
  | c :: rest, i, bound, acc =>
    if i < bound then
      rfindHyphenGo rest (i + 1) bound (if c = '-' then some i else acc)
    else acc

/-- Index of the last hyphen among the first bound characters, if any. -/
def rfindHyphen (c : List Char) (bound : Nat) : Option Nat :=
  rfindHyphenGo c 0 bound none

/-- Number of characters of the long chunk placed on the current line by
_handle_long_word (the break_long_words branch with break_on_hyphens). -/
def handleEnd (c : List Char) (spaceLeft : Nat) : Nat :=
  if spaceLeft < c.length then
    match rfindHyphen c spaceLeft with
    | some h =>
      if 0 < h && (c.take h).any (fun x => x ≠ '-') then h + 1 else spaceLeft
    | none => spaceLeft
  else spaceLeft

/-- First-chunk whitespace drop of _wrap_chunks: the leading whitespace chunk
of a line is dropped unless no line has been produced yet. -/
def preDrop (first : Bool) (chunks : List (List Char)) : List (List Char) :=
  match chunks with
  | c :: rest => if !first && isBlankChunk c then rest else chunks
  | [] => []

/-- Final whitespace drop of _wrap_chunks: if the last chunk on the line is
all whitespace, drop it. -/
def dropTailBlank (l : List (List Char)) : List (List Char) :=
  match l.getLast? with
  | some c => if isBlankChunk c then l.dropLast else l
  | none => []

/-- Result of assembling one line in _wrap_chunks. -/
structure LineStep where
  line : Option (List Char)
  rest : List (List Char)

/-- Long-word handling of one _wrap_chunks iteration: if the next chunk is
wider than the whole line, split it at the last feasible hyphen or at the
remaining space. -/
def handleLong (w curLen : Nat) (cur : List (List Char)) :
    List (List Char) → List (List Char) × List (List Char)
  | [] => (cur, [])
  | c :: r =>
    if w < c.length then
      let spaceLeft := if w < 1 then 1 else w - curLen
      let e := handleEnd c spaceLeft
      (cur ++ [c.take e], c.drop e :: r)
    else (cur, c :: r)

/-- One iteration of the main loop of _wrap_chunks with the default
configuration: drop a leading whitespace chunk (except at the very start),
greedily fill the line, handle an over-wide chunk, drop a trailing whitespace
chunk, and emit the line when nonempty. -/
def lineStep (w : Nat) (first : Bool) (chunks : List (List Char)) : LineStep :=
  let chunks1 := preDrop first chunks
  let tg := takeGreedy w 0 chunks1
  let hres := handleLong w (sumLen tg.1) tg.1 tg.2
  let cur3 := dropTailBlank hres.1
  { line := if cur3.isEmpty then none else some cur3.flatten
    rest := hres.2 }

/-- Fuelled main loop of _wrap_chunks.  Any fuel above chunksMeasure of the
chunk list is enough. -/
def wrapGoF : Nat → Nat → Bool → List (List Char) → List (List Char)
  | 0, _, _, _ => []
  | _ + 1, _, _, [] => []
  | fuel + 1, w, first, c :: rest =>
    let st := lineStep w first (c :: rest)
    match st.line with
    | some l => l :: wrapGoF fuel w false st.rest
    | none => wrapGoF fuel w first st.rest

/-- Termination measure of the _wrap_chunks loop. -/
def chunksMeasure (l : List (List Char)) : Nat := sumLen l + l.length

/-- Model of Python textwrap.wrap(text, w) with default options (the call
made by EmbeddingPreprocessor.chunk_text). -/
def pyWrap (s : List Char) (w : Nat) : List (List Char) :=
  let cs := splitChunks (munge s)
  wrapGoF (chunksMeasure cs + 1) w true cs

/-- Python slice s[-n:]: for n = 0 this is the whole string (the -0 slice),
otherwise the last n characters. -/
def pySuffix (n : Nat) (s : List Char) : List Char :=
  if n = 0 then s else s.drop (s.length - n)

/-- Overlap loop of chunk_text for the segments after the first: each output
segment is the last chunkOverlap characters of the previous pre-overlap chunk
followed by the current chunk. -/
def addOverlapGo (ov : Nat) : List Char → List (List Char) → List (List Char)
  | _, [] => []
  | prev, c :: rest => (pySuffix ov prev ++ c) :: addOverlapGo ov c rest

/-- Model of EmbeddingPreprocessor.chunk_text: wrap the text at chunkSize,
then, when more than one chunk resulted, prepend to each chunk after the
first the last chunkOverlap characters of the previous pre-overlap chunk. -/
def chunkText (text : List Char) (chunkSize chunkOverlap : Nat) : List (List Char) :=
  let chunks := pyWrap text chunkSize
  if 1 < chunks.length then
    match chunks with
    | [] => []
    | c :: rest => c :: addOverlapGo chunkOverlap c rest
  else chunks

/-- Maximal runs of non-whitespace characters of a text (helper for stating
the word-boundary properties; wordsGo carries the current word reversed). -/
def wordsGo : List Char → List Char → List (List Char)
  | [], acc => if acc.isEmpty then [] else [acc.reverse]
  | c :: rest, acc =>
    if isPyWS c then
      if acc.isEmpty then wordsGo rest [] else acc.reverse :: wordsGo rest []
    else wordsGo rest (c :: acc)

/-- Words of a text: its maximal whitespace-free runs, in order. -/
def wordsOf (s : List Char) : List (List Char) := wordsGo s []

/-! Models of src/processing/parser.py.  Filesystem paths are the path
strings relative to the output directory; filesystem writes are returned
explicitly as lists of written paths.  External backends (fitz, camelot,
PIL, hashlib) are modelled by their per-call outcomes supplied as data:
a raising call is an error value, md5 is an arbitrary function of the
image bytes (themselves abstracted to a number). -/

/-- Candidate table returned by camelot for one page: its reported accuracy
and whether writing its CSV succeeds. -/
structure CamTable where
  accuracy : Int
  saveOk : Bool
deriving DecidableEq

/-- Accepted table record of _extract_tables (a path/page/index/accuracy
dictionary in the source). -/
structure TableRec where
  path : String
  page : Nat
  index : Nat
  accuracy : Int
deriving DecidableEq

/-- CSV artifact path of an accepted table. -/
def tablePath (docNum pageNum idx : Nat) : String :=
  "tables/doc_" ++ toString docNum ++ "_page_" ++ toString pageNum ++
    "_table_" ++ toString idx ++ ".csv"

/-- Acceptance loop of _extract_tables over the candidate tables of one
strategy: enumerate all candidates, keep one record per candidate whose
accuracy strictly exceeds the threshold and whose CSV write succeeds, under
the running enumeration index. -/
def processTablesGo (th : Int) (pageNum docNum idx : Nat) :
    List CamTable → List TableRec
  | [] => []
  | t :: rest =>
    if th < t.accuracy then
      if t.saveOk then
        { path := tablePath docNum pageNum idx, page := pageNum,
          index := idx, accuracy := t.accuracy } ::
          processTablesGo th pageNum docNum (idx + 1) rest
      else processTablesGo th pageNum docNum (idx + 1) rest
    else processTablesGo th pageNum docNum (idx + 1) rest

/-- Check whether the first list occurs at the head of the second. -/
def startsWithL : List Char → List Char → Bool
  | [], _ => true
  | _ :: _, [] => false
  | a :: as, b :: bs => a = b && startsWithL as bs

/-- Check whether the first list occurs anywhere inside the second. -/
def hasSub (needle : List Char) : List Char → Bool
  | [] => startsWithL needle []
  | c :: rest => startsWithL needle (c :: rest) || hasSub needle rest

/-- Fatal-pattern test of _extract_tables: "Fatal" in str(e). -/
def containsFatal (msg : List Char) : Bool :=
  hasSub "Fatal".data msg

/-- Model of DocumentParser._extract_tables for one page: run strategy A
(stream); on success gate its candidates; if it raises with a fatal-pattern
message, retry once with strategy B (lattice) under the same gate; any other
failure, or a failure of the retry, yields no tables. -/
def extractTables (streamRes latticeRes : Except (List Char) (List CamTable))
    (th : Int) (pageNum docNum : Nat) : List TableRec :=
  match streamRes with
  | .ok tables => processTablesGo th pageNum docNum 0 tables
  | .error e =>
    if containsFatal e then
      match latticeRes with
      | .ok tables => processTablesGo th pageNum docNum 0 tables
      | .error _ => []
    else []

/-- Image-validation configuration of DocumentParser (min_image_size and
supported_image_formats). -/
structure ImgConfig where
  minW : Nat
  minH : Nat
  supported : List String

/-- One embedded image as the backends deliver it: its bytes (abstracted),
colorspace code, extension hint (none when the dict lacks "ext"), decoded
pixel size, and whether PIL decode and save succeed. -/
structure BaseImage where
  bytes : Nat
  colorspace : Int
  extHint : Option String
  width : Nat
  height : Nat
  decodeOk : Bool
  saveOk : Bool

/-- Record of one accepted image (the ImageContent dataclass). -/
structure ImageContent where
  path : String
  pageNumber : Nat
  index : Nat
  hash : Nat
  width : Nat
  height : Nat
  format : String
deriving DecidableEq

/-- Artifact path of an accepted image. -/
def imagePath (docNum pageNum imgIdx : Nat) (fmt : String) : String :=
  "images/doc_" ++ toString docNum ++ "_page_" ++ toString pageNum ++
    "_img_" ++ toString imgIdx ++ "." ++ fmt

/-- Output format resolution of _process_image: keep the hinted extension
when it is in the allow-list, else fall back to png. -/
def resolvedFormat (cfg : ImgConfig) (img : BaseImage) : String :=
  let f := img.extHint.getD "png"
  if cfg.supported.contains f then f else "png"

/-- Model of DocumentParser._process_image: hash the bytes, decode, reject
undersized or wrong-colorspace images, resolve the format, save, and return
the record.  The second component is the path written, if any; decode or
save failure is caught and yields no record. -/
def processImage (cfg : ImgConfig) (hashFn : Nat → Nat) (img : BaseImage)
    (pageNum imgIdx docNum : Nat) : Option ImageContent × Option String :=
  if !img.decodeOk then (none, none)
  else if img.width < cfg.minW || img.height < cfg.minH ||
      !(img.colorspace = 1 || img.colorspace = 3) then (none, none)
  else
    let fmt := resolvedFormat cfg img
    let path := imagePath docNum pageNum imgIdx fmt
    if !img.saveOk then (none, none)
    else
      (some { path := path, pageNumber := pageNum, index := imgIdx,
              hash := hashFn img.bytes, width := img.width,
              height := img.height, format := fmt },
       some path)

/-- One entry of page.get_images() together with whether
doc.extract_image succeeds for it. -/
structure PageImage where
  extractOk : Bool
  img : BaseImage

/-- Image loop of process_page: enumerate the page images; a failing
extraction is skipped; each extracted image goes through _process_image
(whose write happens there), and the returned record is kept only when its
content hash is not in the page-scoped seen set. -/
def processPageImagesGo (cfg : ImgConfig) (hashFn : Nat → Nat)
    (pageNum docNum idx : Nat) (seen : List Nat) :
    List PageImage → List ImageContent × List String
  | [] => ([], [])
  | im :: rest =>
    if !im.extractOk then
      processPageImagesGo cfg hashFn pageNum docNum (idx + 1) seen rest
    else
      let pr := processImage cfg hashFn im.img pageNum idx docNum
      let write := pr.2.toList
      match pr.1 with
      | some rec =>
        if seen.contains rec.hash then
          let r := processPageImagesGo cfg hashFn pageNum docNum (idx + 1) seen rest
          (r.1, write ++ r.2)
        else
          let r := processPageImagesGo cfg hashFn pageNum docNum (idx + 1)
            (rec.hash :: seen) rest
          (rec :: r.1, write ++ r.2)
      | none =>
        let r := processPageImagesGo cfg hashFn pageNum docNum (idx + 1) seen rest
        (r.1, write ++ r.2)

/-- Image processing of one page, starting from index 0 with an empty
page-scoped seen set. -/
def processPageImages (cfg : ImgConfig) (hashFn : Nat → Nat)
    (pageNum docNum : Nat) (imgs : List PageImage) :
    List ImageContent × List String :=
  processPageImagesGo cfg hashFn pageNum docNum 0 [] imgs

/-- Content of one processed page (the PageContent dataclass). -/
structure PageContent where
  text : List Char
  tables : List TableRec
  images : List ImageContent
  pageNumber : Nat
deriving DecidableEq

/-- One page as the fitz/camelot backends deliver it: the outcome of
page.get_text, the page images, and the camelot outcomes for the two
flavors on this page. -/
structure FitzPage where
  textRes : Except (List Char) (List Char)
  images : List PageImage
  streamTables : Except (List Char) (List CamTable)
  latticeTables : Except (List Char) (List CamTable)

/-- Model of DocumentParser.process_page: raw text extraction first (its
failure re-raises), then the image loop and the table coordinator.  The
second component lists the image files written. -/
def processPage (cfg : ImgConfig) (hashFn : Nat → Nat) (th : Int)
    (pg : FitzPage) (pageNum docNum : Nat) :
    Except (List Char) PageContent × List String :=
  match pg.textRes with
  | .error e => (.error e, [])
  | .ok text =>
    let imr := processPageImages cfg hashFn pageNum docNum pg.images
    let tables := extractTables pg.streamTables pg.latticeTables th pageNum docNum
    (.ok { text := text, tables := tables, images := imr.1,
           pageNumber := pageNum },
     imr.2)

/-- Metadata values of a DocumentContent (the dict holds strings and
numbers). -/
inductive MetaVal
  | s (v : String)
  | n (v : Nat)
deriving DecidableEq

/-- One open fitz document: its pages and document-level metadata. -/
structure FitzDoc where
  pages : List FitzPage
  title : String
  author : String
  creationDate : String

/-- Processed document record (the DocumentContent dataclass). -/
structure DocumentContent where
  filePath : String
  pages : List PageContent
  metadata : List (String × MetaVal)
  error : Option (List Char)
deriving DecidableEq

/-- Outcome of process_document, together with whether doc.close() ran
before returning and the image files written. -/
structure DocResult where
  record : DocumentContent
  closed : Bool
  writes : List String

/-- Page loop of process_document: pages in ascending 0-based order; the
first page failure aborts the remaining pages. -/
def processPagesGo (cfg : ImgConfig) (hashFn : Nat → Nat) (th : Int)
    (docNum pageNum : Nat) :
    List FitzPage → Except (List Char) (List PageContent) × List String
  | [] => (.ok [], [])
  | pg :: rest =>
    let pr := processPage cfg hashFn th pg pageNum docNum
    match pr.1 with
    | .error e => (.error e, pr.2)
    | .ok pc =>
      let r := processPagesGo cfg hashFn th docNum (pageNum + 1) rest
      match r.1 with
      | .error e => (.error e, pr.2 ++ r.2)
      | .ok pcs => (.ok (pc :: pcs), pr.2 ++ r.2)

/-- Model of DocumentParser.process_document: open the document (openRes is
the outcome of fitz.open), process the pages, collect metadata, close, and
return the record; any failure is caught into an error record with empty
pages and only the document number in the metadata.  doc.close() is the
statement between the page loop and the successful return in the source;
closed records whether it ran. -/
def processDocument (cfg : ImgConfig) (hashFn : Nat → Nat) (th : Int)
    (openRes : Except (List Char) FitzDoc) (filePath : String) (docNum : Nat) :
    DocResult :=
  match openRes with
  | .error e =>
    { record := { filePath := filePath, pages := [],
                  metadata := [("document_number", .n docNum)],
                  error := some e },
      closed := false, writes := [] }
  | .ok d =>
    let pr := processPagesGo cfg hashFn th docNum 0 d.pages
    match pr.1 with
    | .error e =>
      { record := { filePath := filePath, pages := [],
                    metadata := [("document_number", .n docNum)],
                    error := some e },
        closed := false, writes := pr.2 }
    | .ok pages =>
      { record := { filePath := filePath, pages := pages,
                    metadata := [("title", .s d.title), ("author", .s d.author),
                                 ("creation_date", .s d.creationDate),
                                 ("page_count", .n d.pages.length),
                                 ("document_number", .n docNum)],
                    error := none },
        closed := true, writes := pr.2 }

/-- Lexicographic comparison of character lists by code point, the order
Python's sorted uses on the path strings. -/
def lexLeChars : List Char → List Char → Bool
  | [], _ => true
  | _ :: _, [] => false
  | a :: as, b :: bs => if a = b then lexLeChars as bs else decide (a < b)

/-- Path comparison used when sorting the discovered document paths. -/
def pathLe (a b : String) : Bool := lexLeChars a.data b.data

/-- Model of DocumentParser.process_all_documents: sort the discovered
paths ascending (Python's sorted is a stable ascending sort; insertion
sort is its extensional model), then process them sequentially with
document numbers starting at 1.  The backend maps each path to its
fitz.open outcome. -/
def processAllDocuments (cfg : ImgConfig) (hashFn : Nat → Nat) (th : Int)
    (backend : String → Except (List Char) FitzDoc) (paths : List String) :
    List DocumentContent :=
  (List.enumFrom 1 (List.insertionSort (fun a b => pathLe a b = true) paths)).map
    (fun p => (processDocument cfg hashFn th (backend p.2) p.2 p.1).record)

/-! Lemmas about the table acceptance loop, shared by the table claims. -/

/-- Every record accepted by the gate has accuracy strictly above the
threshold. -/
theorem processTablesGo_acc (th : Int) (p d : Nat) (ts : List CamTable) :
    ∀ i, ∀ r ∈ processTablesGo th p d i ts, th < r.accuracy := by
  induction ts with
  | nil => intro i r hr; simp [processTablesGo] at hr
  | cons t rest ih =>
    intro i r hr
    simp only [processTablesGo] at hr
    by_cases hacc : th < t.accuracy
    · rw [if_pos hacc] at hr
      by_cases hs : t.saveOk = true
      · rw [if_pos hs] at hr
        cases hr with
        | head => exact hacc
        | tail _ h => exact ih _ r h
      · rw [if_neg hs] at hr
        exact ih _ r hr
    · rw [if_neg hacc] at hr
      exact ih _ r hr

/-- Indices produced by the acceptance loop are at least the running index. -/
theorem processTablesGo_index_ge (th : Int) (p d : Nat) (ts : List CamTable) :
    ∀ i, ∀ r ∈ processTablesGo th p d i ts, i ≤ r.index := by
  induction ts with
  | nil => intro i r hr; simp [processTablesGo] at hr
  | cons t rest ih =>
    intro i r hr
    simp only [processTablesGo] at hr
    by_cases hacc : th < t.accuracy
    · rw [if_pos hacc] at hr
      by_cases hs : t.saveOk = true
      · rw [if_pos hs] at hr
        cases hr with
        | head => exact le_refl _
        | tail _ h => exact Nat.le_of_succ_le (ih _ r h)
      · rw [if_neg hs] at hr
        exact Nat.le_of_succ_le (ih _ r hr)
    · rw [if_neg hacc] at hr
      exact Nat.le_of_succ_le (ih _ r hr)

/-- Accepted records come out in extraction order: indices strictly
increase along the output. -/
theorem processTablesGo_index_sorted (th : Int) (p d : Nat) (ts : List CamTable) :
    ∀ i, List.Pairwise (fun a b => a.index < b.index) (processTablesGo th p d i ts) := by
  induction ts with
  | nil => intro i; simp [processTablesGo]
  | cons t rest ih =>
    intro i
    simp only [processTablesGo]
    by_cases hacc : th < t.accuracy
    · rw [if_pos hacc]
      by_cases hs : t.saveOk = true
      · rw [if_pos hs]
        refine List.Pairwise.cons ?_ (ih (i + 1))
        intro r hr
        exact Nat.lt_of_lt_of_le (Nat.lt_succ_self i)
          (processTablesGo_index_ge th p d rest (i + 1) r hr)
      · rw [if_neg hs]
        exact ih (i + 1)
    · rw [if_neg hacc]
      exact ih (i + 1)

/-- Each accepted record keeps the enumeration index of its candidate: at
offset index - i the candidate list holds a gate-passing candidate. -/
theorem processTablesGo_index_getD (th : Int) (p d : Nat) (ts : List CamTable) :
    ∀ i, ∀ r ∈ processTablesGo th p d i ts,
      r.index - i < ts.length ∧
      th < (ts.getD (r.index - i) { accuracy := 0, saveOk := false }).accuracy ∧
      (ts.getD (r.index - i) { accuracy := 0, saveOk := false }).saveOk = true := by
  induction ts with
  | nil => intro i r hr; simp [processTablesGo] at hr
  | cons t rest ih =>
    intro i r hr
    simp only [processTablesGo] at hr
    by_cases hacc : th < t.accuracy
    · rw [if_pos hacc] at hr
      by_cases hs : t.saveOk = true
      · rw [if_pos hs] at hr
        cases hr with
        | head =>
          simp only [Nat.sub_self]
          exact ⟨Nat.succ_pos _, hacc, hs⟩
        | tail _ h =>
          have hge := processTablesGo_index_ge th p d rest (i + 1) r h
          have h3 := ih (i + 1) r h
          have hstep : r.index - i = (r.index - (i + 1)) + 1 := by omega
          rw [hstep]
          simpa using h3
      · rw [if_neg hs] at hr
        have hge := processTablesGo_index_ge th p d rest (i + 1) r hr
        have h3 := ih (i + 1) r hr
        have hstep : r.index - i = (r.index - (i + 1)) + 1 := by omega
        rw [hstep]
        simpa using h3
    · rw [if_neg hacc] at hr
      have hge := processTablesGo_index_ge th p d rest (i + 1) r hr
      have h3 := ih (i + 1) r hr
      have hstep : r.index - i = (r.index - (i + 1)) + 1 := by omega
      rw [hstep]
      simpa using h3

/-- C4 counterexample: the claim that indexOnPage is re-indexed to the
consecutive values 0..n-1 over the accepted tables fails on the code: with
candidates of accuracies 50 and 90 at threshold 80, the single accepted
table keeps its candidate enumeration index 1, so the index list is [1],
not the range [0]. -/
theorem c4_counterexample :
    (extractTables (.ok [{ accuracy := 50, saveOk := true },
                         { accuracy := 90, saveOk := true }]) (.ok []) 80 0 1).map
        (fun r => r.index) ≠
      List.range (extractTables (.ok [{ accuracy := 50, saveOk := true },
                                      { accuracy := 90, saveOk := true }])
                    (.ok []) 80 0 1).length := by
  decide

/-- C4 amended: the TableRecords are in extraction order with strictly
increasing indexOnPage, and each record's indexOnPage is its candidate's
position in the full candidate list returned by the strategy (a position
whose candidate passes the accuracy gate and saved); indices of discarded
candidates are skipped rather than re-indexed. -/
theorem c4_indices_amended (sRes lRes : Except (List Char) (List CamTable))
    (th : Int) (p d : Nat) :
    List.Pairwise (fun a b => a.index < b.index) (extractTables sRes lRes th p d) ∧
    (∀ ts, sRes = .ok ts → ∀ r ∈ extractTables sRes lRes th p d,
      r.index < ts.length ∧
      th < (ts.getD r.index { accuracy := 0, saveOk := false }).accuracy ∧
      (ts.getD r.index { accuracy := 0, saveOk := false }).saveOk = true) := by
  constructor
  · unfold extractTables
    cases sRes with
    | ok ts => exact processTablesGo_index_sorted th p d ts 0
    | error e =>
      dsimp only
      split
      · cases lRes with
        | ok ts2 => exact processTablesGo_index_sorted th p d ts2 0
        | error _ => simp
      · simp
  · intro ts hts r hr
    subst hts
    simp only [extractTables] at hr
    have h := processTablesGo_index_getD th p d ts 0 r hr
    simpa using h

/-- C4 witness: instantiating the amended theorem on the two-candidate page
shows the accepted record sits at candidate position 1 of 2 with accuracy 90
above the threshold 80. -/
theorem c4_indices_amended_witness :
    (1 : Nat) < 2 ∧ (80 : Int) < 90 := by
  have h := (c4_indices_amended
      (.ok [{ accuracy := 50, saveOk := true }, { accuracy := 90, saveOk := true }])
      (.ok []) 80 0 1).2
      [{ accuracy := 50, saveOk := true }, { accuracy := 90, saveOk := true }] rfl
      { path := tablePath 1 0 1, page := 0, index := 1, accuracy := 90 }
      (by decide)
  exact ⟨h.1, h.2.1⟩

/-- C5: the two-tier fallback of _extract_tables: when strategy A (stream)
raises an error whose message matches the fatal pattern, the page is retried
exactly once with strategy B (lattice) under the same accuracy gate; when
strategy B also fails, or strategy A fails for a non-fatal reason, the
result is empty; and every accepted record has accuracy strictly above the
threshold. -/
theorem c5_table_fallback (sRes lRes : Except (List Char) (List CamTable))
    (th : Int) (p d : Nat) :
    (∀ e ts2, sRes = .error e → containsFatal e = true → lRes = .ok ts2 →
      extractTables sRes lRes th p d = processTablesGo th p d 0 ts2) ∧
    (∀ e e2, sRes = .error e → containsFatal e = true → lRes = .error e2 →
      extractTables sRes lRes th p d = []) ∧
    (∀ e, sRes = .error e → containsFatal e = false →
      extractTables sRes lRes th p d = []) ∧
    (∀ r ∈ extractTables sRes lRes th p d, th < r.accuracy) := by
  refine ⟨?_, ?_, ?_, ?_⟩
  · intro e ts2 hs hf hl
    subst hs; subst hl
    simp [extractTables, hf]
  · intro e e2 hs hf hl
    subst hs; subst hl
    simp [extractTables, hf]
  · intro e hs hf
    subst hs
    simp [extractTables, hf]
  · unfold extractTables
    cases sRes with
    | ok ts => exact processTablesGo_acc th p d ts 0
    | error e =>
      dsimp only
      split
      · cases lRes with
        | ok ts2 => exact processTablesGo_acc th p d ts2 0
        | error _ => simp
      · simp

/-- C5 witness: strategy A raising a fatal-pattern (Ghostscript) error and
strategy B returning one table at accuracy 85 with threshold 80 yields
exactly the one persisted TableRecord. -/
theorem c5_table_fallback_witness :
    extractTables (.error "Ghostscript Fatal error on page".data)
        (.ok [{ accuracy := 85, saveOk := true }]) 80 0 1 =
      [{ path := tablePath 1 0 0, page := 0, index := 0, accuracy := 85 }] := by
  have h := (c5_table_fallback (.error "Ghostscript Fatal error on page".data)
      (.ok [{ accuracy := 85, saveOk := true }]) 80 0 1).1
      "Ghostscript Fatal error on page".data [{ accuracy := 85, saveOk := true }]
      rfl (by decide) rfl
  rw [h]
  decide

/-! Lemmas about image normalization and page-scoped deduplication. -/

/-- Validation outcome of _process_image, summarized: the image decodes,
meets the minimum size, has an accepted colorspace, and saves. -/
def imageAccepted (cfg : ImgConfig) (im : BaseImage) : Bool :=
  im.decodeOk &&
  !(im.width < cfg.minW || im.height < cfg.minH ||
    !(im.colorspace = 1 || im.colorspace = 3)) &&
  im.saveOk

/-- Closed form of _process_image: an accepted image yields its record and
one write; any rejected image yields neither. -/
theorem processImage_eq (cfg : ImgConfig) (hashFn : Nat → Nat) (im : BaseImage)
    (p i d : Nat) :
    processImage cfg hashFn im p i d =
      if imageAccepted cfg im then
        (some { path := imagePath d p i (resolvedFormat cfg im), pageNumber := p,
                index := i, hash := hashFn im.bytes, width := im.width,
                height := im.height, format := resolvedFormat cfg im },
         some (imagePath d p i (resolvedFormat cfg im)))
      else (none, none) := by
  unfold processImage imageAccepted
  cases hd : im.decodeOk <;> cases hs : im.saveOk <;>
    by_cases hc : (im.width < cfg.minW || im.height < cfg.minH ||
      !(im.colorspace = 1 || im.colorspace = 3) : Bool) = true <;>
    simp [hd, hs, hc] <;> split_ifs <;> simp_all <;> omega

/-- Records of the page image loop never carry a hash from the seen set, and
their hashes are pairwise distinct. -/
theorem processPageImagesGo_hashes (cfg : ImgConfig) (hashFn : Nat → Nat)
    (p d : Nat) (imgs : List PageImage) :
    ∀ (idx : Nat) (seen : List Nat),
      (∀ r ∈ (processPageImagesGo cfg hashFn p d idx seen imgs).1, r.hash ∉ seen) ∧
      List.Pairwise (fun a b => a.hash ≠ b.hash)
        (processPageImagesGo cfg hashFn p d idx seen imgs).1 := by
  induction imgs with
  | nil => intro idx seen; constructor <;> simp [processPageImagesGo]
  | cons im rest ih =>
    intro idx seen
    simp only [processPageImagesGo]
    cases hext : im.extractOk with
    | false => simpa [hext] using ih (idx + 1) seen
    | true =>
      simp only [hext, Bool.not_true, Bool.false_eq_true, if_false]
      cases hpr : (processImage cfg hashFn im.img p idx d).1 with
      | none => exact ih (idx + 1) seen
      | some rec =>
        dsimp only
        split
        · exact ih (idx + 1) seen
        · next hcont =>
          have hmem : rec.hash ∉ seen := by
            intro hm
            exact hcont (List.elem_eq_true_of_mem hm)
          have hih := ih (idx + 1) (rec.hash :: seen)
          refine ⟨?_, ?_⟩
          · intro r hr
            cases hr with
            | head => exact hmem
            | tail _ h =>
              intro hm
              exact hih.1 r h (List.mem_cons_of_mem _ hm)
          · refine List.Pairwise.cons ?_ hih.2
            intro r hr hEq
            exact hih.1 r hr (hEq ▸ List.mem_cons_self _ _)

/-- C2 counterexample: two identical valid images on one page yield one
ImageRecord but two filesystem writes: the duplicate is still written,
because _process_image saves the file before process_page consults the
seen-hash set, refuting the no-write half of the claim. -/
theorem c2_counterexample :
    (processPageImages { minW := 100, minH := 100, supported := ["jpeg", "png", "jpg"] }
        (fun b => b) 0 1
        [{ extractOk := true,
           img := { bytes := 7, colorspace := 1, extHint := some "png",
                    width := 200, height := 200, decodeOk := true, saveOk := true } },
         { extractOk := true,
           img := { bytes := 7, colorspace := 1, extHint := some "png",
                    width := 200, height := 200, decodeOk := true, saveOk := true } }]).1.length = 1 ∧
    ¬ ((processPageImages { minW := 100, minH := 100, supported := ["jpeg", "png", "jpg"] }
        (fun b => b) 0 1
        [{ extractOk := true,
           img := { bytes := 7, colorspace := 1, extHint := some "png",
                    width := 200, height := 200, decodeOk := true, saveOk := true } },
         { extractOk := true,
           img := { bytes := 7, colorspace := 1, extHint := some "png",
                    width := 200, height := 200, decodeOk := true, saveOk := true } }]).2.length ≤ 1) := by
  decide

/-- C2 amended: a duplicate image (same content hash, same page) produces no
ImageRecord, so contentHash values are unique among the records of one page
and two identical images yield exactly one record; but the duplicate IS
still written to the output directory, since deduplication happens after
_process_image has persisted the file. -/
theorem c2_dedup_amended (cfg : ImgConfig) (hashFn : Nat → Nat) (p d : Nat) :
    (∀ imgs, List.Pairwise (fun a b => a.hash ≠ b.hash)
      (processPageImages cfg hashFn p d imgs).1) ∧
    (∀ im : BaseImage, imageAccepted cfg im = true →
      (processPageImages cfg hashFn p d
        [{ extractOk := true, img := im }, { extractOk := true, img := im }]).1.length = 1 ∧
      (processPageImages cfg hashFn p d
        [{ extractOk := true, img := im }, { extractOk := true, img := im }]).2.length = 2) := by
  constructor
  · intro imgs
    exact (processPageImagesGo_hashes cfg hashFn p d imgs 0 []).2
  · intro im hacc
    simp [processPageImages, processPageImagesGo, processImage_eq, hacc]

/-- C2 witness: the amended theorem instantiated on a concrete valid image
duplicated on one page. -/
theorem c2_dedup_amended_witness :
    (processPageImages { minW := 100, minH := 100, supported := ["jpeg", "png", "jpg"] }
        (fun b => b + 1) 2 3
        [{ extractOk := true,
           img := { bytes := 9, colorspace := 3, extHint := none,
                    width := 150, height := 150, decodeOk := true, saveOk := true } },
         { extractOk := true,
           img := { bytes := 9, colorspace := 3, extHint := none,
                    width := 150, height := 150, decodeOk := true, saveOk := true } }]).1.length = 1 := by
  exact ((c2_dedup_amended { minW := 100, minH := 100, supported := ["jpeg", "png", "jpg"] }
      (fun b => b + 1) 2 3).2
      { bytes := 9, colorspace := 3, extHint := none,
        width := 150, height := 150, decodeOk := true, saveOk := true }
      (by decide)).1

/-! Claims about process_document and the pipeline driver. -/

/-- C3 counterexample: a document that opens but whose single page fails raw
text extraction returns with closed = false: doc.close() sits on the success
path only, so the handle is not released before the error return. -/
theorem c3_counterexample :
    (processDocument { minW := 100, minH := 100, supported := ["png"] } (fun b => b) 80
        (.ok { pages := [{ textRes := .error "boom".data, images := [],
                           streamTables := .ok [], latticeTables := .ok [] }],
               title := "t", author := "a", creationDate := "d" })
        "a.pdf" 1).closed = false := by
  decide

/-- C3 amended: the backend handle is closed before returning exactly on the
success path: closed holds iff the record carries no error (page failures
and open failures both return without reaching doc.close()). -/
theorem c3_close_amended (cfg : ImgConfig) (hashFn : Nat → Nat) (th : Int)
    (openRes : Except (List Char) FitzDoc) (path : String) (n : Nat) :
    (processDocument cfg hashFn th openRes path n).closed = true ↔
      (processDocument cfg hashFn th openRes path n).record.error = none := by
  cases openRes with
  | error e => simp [processDocument]
  | ok d =>
    rcases hp : (processPagesGo cfg hashFn th n 0 d.pages).1 with e | pages <;>
      simp [processDocument, hp]

/-- C3 witness: the amended equivalence instantiated on a successfully
processed empty document, where the handle is closed. -/
theorem c3_close_amended_witness :
    (processDocument { minW := 1, minH := 1, supported := [] } (fun b => b) 80
        (.ok { pages := [], title := "", author := "", creationDate := "" })
        "a.pdf" 1).closed = true := by
  exact (c3_close_amended { minW := 1, minH := 1, supported := [] } (fun b => b) 80
      (.ok { pages := [], title := "", author := "", creationDate := "" })
      "a.pdf" 1).mpr (by decide)

/-- C8: process_document is total in the model (it always returns a record),
and whenever the error field is set the pages are empty and the metadata
holds exactly the document number; an open failure surfaces its message as
the record error. -/
theorem c8_error_contract (cfg : ImgConfig) (hashFn : Nat → Nat) (th : Int)
    (openRes : Except (List Char) FitzDoc) (path : String) (n : Nat) :
    ((processDocument cfg hashFn th openRes path n).record.error ≠ none →
      (processDocument cfg hashFn th openRes path n).record.pages = [] ∧
      (processDocument cfg hashFn th openRes path n).record.metadata =
        [("document_number", MetaVal.n n)]) ∧
    (∀ e, openRes = .error e →
      (processDocument cfg hashFn th openRes path n).record.error = some e) := by
  constructor
  · intro herr
    cases openRes with
    | error e => simp [processDocument]
    | ok d =>
      rcases hp : (processPagesGo cfg hashFn th n 0 d.pages).1 with e | pages
      · simp [processDocument, hp]
      · exfalso
        apply herr
        simp [processDocument, hp]
  · intro e he
    subst he
    simp [processDocument]

/-- C8 witness: the error contract instantiated on a document whose open
fails. -/
theorem c8_error_contract_witness :
    (processDocument { minW := 1, minH := 1, supported := [] } (fun b => b) 80
        (.error "no such file".data) "missing.pdf" 3).record.pages = [] ∧
    (processDocument { minW := 1, minH := 1, supported := [] } (fun b => b) 80
        (.error "no such file".data) "missing.pdf" 3).record.metadata =
      [("document_number", MetaVal.n 3)] := by
  exact (c8_error_contract { minW := 1, minH := 1, supported := [] } (fun b => b) 80
      (.error "no such file".data) "missing.pdf" 3).1 (by decide)

/-- Totality of lexLeChars: any two character lists compare one way or the
other. -/
theorem lexLeChars_total (x : List Char) :
    ∀ y, lexLeChars x y = true ∨ lexLeChars y x = true := by
  induction x with
  | nil => intro y; left; cases y <;> simp [lexLeChars]
  | cons a as ih =>
    intro y
    cases y with
    | nil => right; simp [lexLeChars]
    | cons b bs =>
      by_cases hab : a = b
      · subst hab
        rcases ih bs with h | h
        · left; simpa [lexLeChars] using h
        · right; simpa [lexLeChars] using h
      · rcases Ne.lt_or_lt hab with h | h
        · left; simp [lexLeChars, hab, h]
        · right; simp [lexLeChars, Ne.symm hab, h]

/-- Transitivity of lexLeChars. -/
theorem lexLeChars_trans (x : List Char) :
    ∀ y z, lexLeChars x y = true → lexLeChars y z = true → lexLeChars x z = true := by
  induction x with
  | nil => intro y z _ _; cases z <;> simp [lexLeChars]
  | cons a as ih =>
    intro y z hxy hyz
    cases y with
    | nil => simp [lexLeChars] at hxy
    | cons b bs =>
      cases z with
      | nil => simp [lexLeChars] at hyz
      | cons c cs =>
        by_cases hab : a = b <;> by_cases hbc : b = c
        · subst hab; subst hbc
          simp only [lexLeChars, if_pos rfl] at hxy hyz ⊢
          exact ih bs cs hxy hyz
        · subst hab
          simp only [lexLeChars, if_pos rfl] at hxy
          simp only [lexLeChars, if_neg hbc] at hyz
          simp [lexLeChars, hbc, of_decide_eq_true hyz]
        · subst hbc
          simp only [lexLeChars, if_neg hab] at hxy
          simp [lexLeChars, hab, of_decide_eq_true hxy]
        · simp only [lexLeChars, if_neg hab] at hxy
          simp only [lexLeChars, if_neg hbc] at hyz
          have hac : a < c := lt_trans (of_decide_eq_true hxy) (of_decide_eq_true hyz)
          have hne : a ≠ c := ne_of_lt hac
          simp [lexLeChars, hne, hac]

/-- Every record of process_document carries its input path. -/
theorem processDocument_filePath (cfg : ImgConfig) (hashFn : Nat → Nat) (th : Int)
    (openRes : Except (List Char) FitzDoc) (path : String) (n : Nat) :
    (processDocument cfg hashFn th openRes path n).record.filePath = path := by
  cases openRes with
  | error e => simp [processDocument]
  | ok d =>
    rcases hp : (processPagesGo cfg hashFn th n 0 d.pages).1 with e | pages <;>
      simp [processDocument, hp]

/-- Every record of process_document carries its document number in the
metadata under the document_number key. -/
theorem processDocument_docnum (cfg : ImgConfig) (hashFn : Nat → Nat) (th : Int)
    (openRes : Except (List Char) FitzDoc) (path : String) (n : Nat) :
    (processDocument cfg hashFn th openRes path n).record.metadata.lookup
        "document_number" = some (MetaVal.n n) := by
  cases openRes with
  | error e => simp [processDocument, List.lookup]
  | ok d =>
    rcases hp : (processPagesGo cfg hashFn th n 0 d.pages).1 with e | pages <;>
      simp [processDocument, hp, List.lookup]

/-- C9: the driver emits the documents in ascending lexicographic path
order, over exactly the discovered paths, and the record at position i
carries documentOrdinal i+1 — the ordinal is determined by the sorted
position alone. -/
theorem c9_ordinal_assignment (cfg : ImgConfig) (hashFn : Nat → Nat) (th : Int)
    (backend : String → Except (List Char) FitzDoc) (paths : List String) :
    List.Sorted (fun a b => pathLe a b = true)
      ((processAllDocuments cfg hashFn th backend paths).map (fun r => r.filePath)) ∧
    ((processAllDocuments cfg hashFn th backend paths).map (fun r => r.filePath)).Perm
      paths ∧
    (∀ i r, (processAllDocuments cfg hashFn th backend paths).get? i = some r →
      r.metadata.lookup "document_number" = some (MetaVal.n (i + 1))) := by
  have htot : IsTotal String (fun a b => pathLe a b = true) :=
    ⟨fun a b => lexLeChars_total a.data b.data⟩
  have htrans : IsTrans String (fun a b => pathLe a b = true) :=
    ⟨fun a b c => lexLeChars_trans a.data b.data c.data⟩
  have hmap : (processAllDocuments cfg hashFn th backend paths).map (fun r => r.filePath) =
      List.insertionSort (fun a b => pathLe a b = true) paths := by
    unfold processAllDocuments
    rw [List.map_map]
    have hcomp : ((fun r => r.filePath) ∘
        fun p => (processDocument cfg hashFn th (backend p.2) p.2 p.1).record) =
        fun p : Nat × String => p.2 := by
      funext p
      exact processDocument_filePath cfg hashFn th (backend p.2) p.2 p.1
    rw [hcomp]
    exact List.enumFrom_map_snd 1 _
  refine ⟨?_, ?_, ?_⟩
  · rw [hmap]
    exact @List.sorted_insertionSort String (fun a b => pathLe a b = true) _ htot htrans paths
  · rw [hmap]
    exact List.perm_insertionSort (fun a b => pathLe a b = true) paths
  · intro i r hget
    unfold processAllDocuments at hget
    rw [List.get?_map, List.get?_enumFrom] at hget
    rcases hsl : (List.insertionSort (fun a b => pathLe a b = true) paths).get? i with _ | p
    · rw [hsl] at hget
      exact absurd hget (by simp)
    · rw [hsl] at hget
      have hr : (processDocument cfg hashFn th (backend p) p (1 + i)).record = r :=
        Option.some_inj.mp hget
      have hdoc := processDocument_docnum cfg hashFn th (backend p) p (1 + i)
      rw [hr] at hdoc
      simpa [Nat.add_comm] using hdoc

/-- C9 witness: with discovered paths b.pdf and a.pdf, a.pdf receives
ordinal 1 (and the output order is the sorted order). -/
theorem c9_ordinal_assignment_witness :
    ((processAllDocuments { minW := 1, minH := 1, supported := [] } (fun b => b) 80
        (fun _ => .error "e".data) ["b.pdf", "a.pdf"]).map (fun r => r.filePath) =
      ["a.pdf", "b.pdf"]) ∧
    ({ filePath := "a.pdf", pages := [],
       metadata := [("document_number", MetaVal.n 1)],
       error := some "e".data } : DocumentContent).metadata.lookup "document_number" =
      some (MetaVal.n 1) := by
  constructor
  · decide
  · exact (c9_ordinal_assignment { minW := 1, minH := 1, supported := [] } (fun b => b) 80
      (fun _ => .error "e".data) ["b.pdf", "a.pdf"]).2.2 0
      { filePath := "a.pdf", pages := [],
        metadata := [("document_number", MetaVal.n 1)],
        error := some "e".data }
      (by decide)

/-! Claims about chunk_text: the overlap splice (C1). -/

/-- Entry i of the overlap loop output is the pySuffix of the previous
pre-overlap chunk followed by the current pre-overlap chunk. -/
theorem addOverlapGo_getD (ov : Nat) (rest : List (List Char)) :
    ∀ (prev : List Char) (i : Nat), i < rest.length →
      (addOverlapGo ov prev rest).getD i [] =
        pySuffix ov ((prev :: rest).getD i []) ++ rest.getD i [] := by
  induction rest with
  | nil => intro prev i h; simp at h
  | cons c rest ih =>
    intro prev i h
    cases i with
    | zero => simp [addOverlapGo]
    | succ j =>
      simp only [addOverlapGo, List.getD_cons_succ]
      exact ih c j (by simpa using h)

/-- Dropping past an appended front part. -/
theorem drop_length_add (b : List Char) (k : Nat) :
    ∀ a : List Char, (a ++ b).drop (a.length + k) = b.drop k := by
  intro a
  induction a with
  | nil => simp
  | cons x xs ih =>
    simp only [List.cons_append, List.length_cons]
    rw [show xs.length + 1 + k = (xs.length + k) + 1 by omega,
      List.drop_succ_cons]
    exact ih

/-- Suffix extraction ignores an appended front part when the suffix length
is positive and fits inside the second part. -/
theorem pySuffix_append (ov : Nat) (a b : List Char) (h1 : 1 ≤ ov)
    (h2 : ov ≤ b.length) :
    pySuffix ov (a ++ b) = pySuffix ov b := by
  unfold pySuffix
  rw [if_neg (by omega), if_neg (by omega), List.length_append]
  have hsplit : a.length + b.length - ov = a.length + (b.length - ov) := by omega
  rw [hsplit]
  exact drop_length_add b (b.length - ov) a

/-- C1 counterexample: with chunkSize 2 and chunkOverlap 3 on "a b c" the
pre-overlap chunks are "a","b","c" and the third output segment is "bc",
not the "abc" the cascading previous-output rule would give. -/
theorem c1_counterexample :
    (chunkText "a b c".data 2 3).getD 2 [] ≠
      pySuffix 3 ((chunkText "a b c".data 2 3).getD 1 []) ++
        (pyWrap "a b c".data 2).getD 2 [] := by
  decide

/-- C1 amended: the code splices the last chunkOverlap characters of the
previous PRE-overlap chunk (chunks[i-1][-overlap:]), not of the previous
output segment; the two coincide — and the cascading description becomes
true — exactly when the overlap is positive and every pre-overlap chunk is
at least chunkOverlap characters long. -/
theorem c1_overlap_amended (text : List Char) (size ov : Nat) (hov : 1 ≤ ov)
    (hlen : ∀ c ∈ pyWrap text size, ov ≤ c.length) (i : Nat)
    (hi : i + 2 ≤ (pyWrap text size).length) :
    (chunkText text size ov).getD (i + 1) [] =
      pySuffix ov ((chunkText text size ov).getD i []) ++
        (pyWrap text size).getD (i + 1) [] := by
  rcases hcs : pyWrap text size with _ | ⟨c, rest⟩
  · rw [hcs] at hi
    simp at hi
  · rw [hcs] at hi hlen
    have hct : chunkText text size ov = c :: addOverlapGo ov c rest := by
      unfold chunkText
      rw [hcs]
      rw [if_pos (by simp only [List.length_cons] at hi ⊢; omega)]
    rw [hct]
    have hrest : i < rest.length := by
      simp only [List.length_cons] at hi
      omega
    rw [List.getD_cons_succ, addOverlapGo_getD ov rest c i hrest]
    cases i with
    | zero => simp
    | succ j =>
      have hj : j < rest.length := by omega
      have hstep : (c :: addOverlapGo ov c rest).getD (j + 1) [] =
          (addOverlapGo ov c rest).getD j [] := List.getD_cons_succ
      rw [hstep, addOverlapGo_getD ov rest c j hj]
      have hmem : rest.getD j [] ∈ c :: rest := by
        rw [List.getD_eq_getElem rest [] hj]
        exact List.mem_cons_of_mem _ (List.getElem_mem hj)
      rw [pySuffix_append ov _ _ hov (hlen _ hmem)]
      have h1 : (c :: rest).getD (j + 1) ([] : List Char) = rest.getD j [] :=
        List.getD_cons_succ
      have h2 : (c :: rest).getD (j + 1 + 1) ([] : List Char) = rest.getD (j + 1) [] :=
        List.getD_cons_succ
      rw [h1, h2]

/-- C1 witness: the amended cascade equation instantiated on the spec's own
example text with chunkSize 10 and overlap 3 at the third segment. -/
theorem c1_overlap_amended_witness :
    (chunkText "the quick brown fox jumps over".data 10 3).getD 2 [] =
      pySuffix 3 ((chunkText "the quick brown fox jumps over".data 10 3).getD 1 []) ++
        (pyWrap "the quick brown fox jumps over".data 10).getD 2 [] := by
  exact c1_overlap_amended "the quick brown fox jumps over".data 10 3 (by decide)
    (by decide) 1 (by decide)

/-! Claim C10: whitespace-only input yields no chunks. -/

/-- Tab expansion maps an all-whitespace text to an all-whitespace text. -/
theorem expandTabsGo_allWS (s : List Char) :
    ∀ col, (∀ c ∈ s, isPyWS c = true) → ∀ c ∈ expandTabsGo s col, isPyWS c = true := by
  induction s with
  | nil => intro col _ c hc; simp [expandTabsGo] at hc
  | cons a rest ih =>
    intro col h c hc
    simp only [expandTabsGo] at hc
    by_cases ht : a = '\t'
    · rw [if_pos ht] at hc
      rcases List.mem_append.mp hc with hm | hm
      · rw [List.eq_of_mem_replicate hm]
        decide
      · exact ih _ (fun x hx => h x (List.mem_cons_of_mem _ hx)) c hm
    · rw [if_neg ht] at hc
      have htl : ∀ x ∈ rest, isPyWS x = true :=
        fun x hx => h x (List.mem_cons_of_mem _ hx)
      split at hc <;> rcases List.mem_cons.mp hc with hc | hc
      · exact hc ▸ h a (List.mem_cons_self _ _)
      · exact ih _ htl c hc
      · exact hc ▸ h a (List.mem_cons_self _ _)
      · exact ih _ htl c hc

/-- Whitespace replacement maps an all-whitespace text to all spaces. -/
theorem replaceWS_all_space (s : List Char) (h : ∀ c ∈ s, isPyWS c = true) :
    ∀ c ∈ replaceWS s, c = ' ' := by
  intro c hc
  rcases List.mem_map.mp hc with ⟨a, ha, rfl⟩
  simp [h a ha]

/-- The wordsep scan over an empty text yields no chunks, at any fuel. -/
theorem splitGoF_nil (fuel : Nat) (prevRev : List Char) :
    splitGoF fuel prevRev [] = [] := by
  cases fuel <;> rfl

/-- The wordsep scan over a nonempty all-space text yields the single
whitespace-run chunk. -/
theorem splitGoF_all_space (c : Char) (rest : List Char)
    (h : ∀ x ∈ c :: rest, x = ' ') (fuel : Nat) (prevRev : List Char)
    (hf : (c :: rest).length < fuel) :
    splitGoF fuel prevRev (c :: rest) = [c :: rest] := by
  cases fuel with
  | zero => omega
  | succ f =>
    have hc : c = ' ' := h c (List.mem_cons_self _ _)
    have hpy : isPyWS c = true := by rw [hc]; decide
    simp only [splitGoF, hpy, if_true]
    have htake : (c :: rest).takeWhile isPyWS = c :: rest := by
      rw [List.takeWhile_eq_self_iff]
      intro x hx
      rw [h x hx]
      decide
    rw [htake, List.drop_length, splitGoF_nil]

/-- A chunk of spaces is blank. -/
theorem isBlankChunk_of_spaces (c : List Char) (h : ∀ x ∈ c, x = ' ') :
    isBlankChunk c = true := by
  unfold isBlankChunk
  rw [List.all_eq_true]
  intro x hx
  rw [h x hx]
  decide

/-- The wrap loop over no chunks yields no lines, at any fuel. -/
theorem wrapGoF_nil (fuel w : Nat) (first : Bool) :
    wrapGoF fuel w first [] = [] := by
  cases fuel <;> rfl

/-- The wrap loop over one all-space chunk yields no lines: the chunk is
either pre-dropped, dropped as a trailing whitespace chunk, or split by the
long-word handler into all-space pieces meeting the same fate. -/
theorem wrapGoF_blank_single (fuel : Nat) :
    ∀ (w : Nat) (first : Bool) (c : List Char), (∀ x ∈ c, x = ' ') →
      wrapGoF fuel w first [c] = [] := by
  induction fuel with
  | zero => intro w first c _; rfl
  | succ f ih =>
    intro w first c h
    have hblank : isBlankChunk c = true := isBlankChunk_of_spaces c h
    cases first with
    | false =>
      have h1 : lineStep w false [c] = { line := none, rest := [] } := by
        simp [lineStep, preDrop, hblank, takeGreedy, handleLong, sumLen,
          dropTailBlank]
      simp only [wrapGoF, h1]
      exact wrapGoF_nil f w false
    | true =>
      by_cases hfit : c.length ≤ w
      · have h1 : lineStep w true [c] = { line := none, rest := [] } := by
          simp [lineStep, preDrop, takeGreedy, hfit, handleLong, sumLen,
            dropTailBlank, hblank]
        simp only [wrapGoF, h1]
        exact wrapGoF_nil f w true
      · have hgt : w < c.length := Nat.lt_of_not_le hfit
        have hbt : ∀ e, isBlankChunk (List.take e c) = true := fun e =>
          isBlankChunk_of_spaces _ (fun x hx => h x (List.mem_of_mem_take hx))
        have hdb : ∀ e, dropTailBlank [List.take e c] = [] := fun e => by
          simp [dropTailBlank, hbt e]
        have htg : takeGreedy w 0 [c] = ([], [c]) := by
          simp [takeGreedy, hfit]
        have h1 : lineStep w true [c] =
            { line := none,
              rest := [c.drop (handleEnd c (if w < 1 then 1 else w))] } := by
          simp [lineStep, preDrop, htg, handleLong, hgt, sumLen, hdb]
        simp only [wrapGoF, h1]
        exact ih w true _ (fun x hx => h x (List.mem_of_mem_drop hx))

/-- C10: chunk_text on the empty string or on whitespace-only text returns
the empty sequence of segments, not a single empty segment. -/
theorem c10_whitespace_empty (text : List Char) (size ov : Nat)
    (h : ∀ c ∈ text, isPyWS c = true) :
    chunkText text size ov = [] := by
  have hmunge : ∀ c ∈ munge text, c = ' ' := by
    intro c hc
    unfold munge at hc
    exact replaceWS_all_space _ (expandTabsGo_allWS text 0 h) c hc
  have hwrap : pyWrap text size = [] := by
    unfold pyWrap splitChunks
    rcases hm : munge text with _ | ⟨c, rest⟩
    · simp only [splitGoF_nil, wrapGoF_nil]
    · rw [hm] at hmunge
      simp only [splitGoF_all_space c rest hmunge ((c :: rest).length + 1) []
        (by omega)]
      exact wrapGoF_blank_single _ _ _ _ hmunge
  unfold chunkText
  rw [hwrap]
  simp

/-- C10 witness: a concrete whitespace-only string yields no chunks. -/
theorem c10_whitespace_empty_witness :
    chunkText " \t\n ".data 512 50 = [] :=
  c10_whitespace_empty " \t\n ".data 512 50 (by decide)

/-! Claim C7: short text passes through chunk_text in one piece.  The lemmas
here establish that the wordsep scan partitions the munged text and that a
short text assembles into a single line. -/

/-- Tab expansion is the identity on tab-free text. -/
theorem expandTabsGo_id (s : List Char) (h : ∀ c ∈ s, c ≠ '\t') :
    ∀ col, expandTabsGo s col = s := by
  induction s with
  | nil => intro col; rfl
  | cons a rest ih =>
    intro col
    have ha : a ≠ '\t' := h a (List.mem_cons_self _ _)
    have htl : ∀ c ∈ rest, c ≠ '\t' := fun c hc => h c (List.mem_cons_of_mem _ hc)
    simp only [expandTabsGo, if_neg ha]
    split <;> rw [ih htl]

/-- Whitespace replacement is the identity when the only whitespace present
is the plain space. -/
theorem replaceWS_id (s : List Char) (h : ∀ c ∈ s, isPyWS c = true → c = ' ') :
    replaceWS s = s := by
  induction s with
  | nil => rfl
  | cons a rest ih =>
    have ha : isPyWS a = true → a = ' ' := h a (List.mem_cons_self _ _)
    have htl : ∀ c ∈ rest, isPyWS c = true → c = ' ' :=
      fun c hc => h c (List.mem_cons_of_mem _ hc)
    unfold replaceWS at ih ⊢
    simp only [List.map_cons]
    rw [ih htl]
    by_cases hp : isPyWS a = true
    · rw [if_pos hp, ha hp]
    · rw [if_neg hp]

/-- Textwrap whitespace is also strip whitespace. -/
theorem isPyWS_isStripWS (c : Char) (h : isPyWS c = true) : isStripWS c = true := by
  simp [isStripWS, h]

/-- Munging is the identity on text whose strippable characters are all
plain spaces. -/
theorem munge_id (s : List Char) (h : ∀ c ∈ s, isStripWS c = true → c = ' ') :
    munge s = s := by
  unfold munge
  have htab : ∀ c ∈ s, c ≠ '\t' := by
    intro c hc he
    have hsp := h c hc (by rw [he]; decide)
    rw [he] at hsp
    exact absurd hsp (by decide)
  rw [expandTabsGo_id s htab 0]
  exact replaceWS_id s (fun c hc hp => h c hc (isPyWS_isStripWS c hp))

/-- The word scan consumes a prefix: chunk and remainder reassemble to the
accumulated characters followed by the input. -/
theorem wordScanGo_append (rest : List Char) :
    ∀ prevRev accRev,
      (wordScanGo prevRev accRev rest).1 ++ (wordScanGo prevRev accRev rest).2 =
        accRev.reverse ++ rest := by
  induction rest with
  | nil => intro prevRev accRev; simp [wordScanGo]
  | cons c rest ih =>
    intro prevRev accRev
    simp only [wordScanGo]
    split
    · rfl
    · split
      · next h2 =>
        have hc : c = '-' := by
          simp only [Bool.and_eq_true, decide_eq_true_eq] at h2
          exact h2.1.1
        subst hc
        simp
      · split
        · rfl
        · rw [ih prevRev (c :: accRev)]
          simp

/-- The word scan of a nonempty accumulator yields a nonempty chunk. -/
theorem wordScanGo_ne_nil (rest : List Char) :
    ∀ prevRev accRev, accRev ≠ [] → (wordScanGo prevRev accRev rest).1 ≠ [] := by
  induction rest with
  | nil =>
    intro prevRev accRev h
    simpa [wordScanGo] using h
  | cons c rest ih =>
    intro prevRev accRev h
    simp only [wordScanGo]
    split
    · simpa using h
    · split
      · simp
      · split
        · simpa using h
        · exact ih prevRev (c :: accRev) (by simp)

/-- Head of a hyphen-run count: only a hyphen starts a positive run. -/
theorem hyphenRunLen_cons (c : Char) (rest : List Char) :
    hyphenRunLen (c :: rest) = if c = '-' then hyphenRunLen rest + 1 else 0 := by
  by_cases hc : c = '-'
  · subst hc
    rw [if_pos rfl]
    rfl
  · rw [if_neg hc]
    unfold hyphenRunLen
    split
    · next heq => cases heq; exact absurd rfl hc
    · rfl

/-- An em-dash lookahead only fires on a hyphen. -/
theorem emDashAhead_head (c : Char) (rest : List Char)
    (h : emDashAhead (c :: rest) = true) : c = '-' := by
  by_contra hc
  unfold emDashAhead at h
  rw [Bool.and_eq_true] at h
  have h2 := h.1
  rw [decide_eq_true_eq, hyphenRunLen_cons, if_neg hc] at h2
  omega

/-- The wordsep scan partitions the text: its chunks concatenate back to the
input. -/
theorem splitGoF_flatten (fuel : Nat) :
    ∀ (prevRev s : List Char), s.length < fuel →
      (splitGoF fuel prevRev s).flatten = s := by
  induction fuel with
  | zero => intro _ s h; omega
  | succ f ih =>
    intro prevRev s hf
    cases s with
    | nil => rfl
    | cons c rest =>
      simp only [splitGoF]
      by_cases h1 : isPyWS c = true
      · rw [if_pos h1]
        have hsplit : (c :: rest).takeWhile isPyWS ++ (c :: rest).dropWhile isPyWS =
            c :: rest := List.takeWhile_append_dropWhile _ _
        have hdrop : (c :: rest).drop ((c :: rest).takeWhile isPyWS).length =
            (c :: rest).dropWhile isPyWS := by
          have h := List.drop_left ((c :: rest).takeWhile isPyWS)
            ((c :: rest).dropWhile isPyWS)
          rwa [hsplit] at h
        have hlens : ((c :: rest).takeWhile isPyWS).length +
            ((c :: rest).dropWhile isPyWS).length = (c :: rest).length := by
          rw [← List.length_append, hsplit]
        have hrun1 : 1 ≤ ((c :: rest).takeWhile isPyWS).length := by
          rw [List.takeWhile_cons_of_pos h1]
          simp
        rw [List.flatten_cons, hdrop,
          ih _ _ (by simp only [List.length_cons] at hlens hf ⊢; omega)]
        exact hsplit
      · rw [if_neg h1]
        by_cases h2 : ((match prevRev with
            | p :: _ => isWP p
            | [] => false) && emDashAhead (c :: rest)) = true
        · rw [if_pos h2]
          have hc : c = '-' := by
            rw [Bool.and_eq_true] at h2
            exact emDashAhead_head c rest h2.2
          have htw : (c :: rest).takeWhile (fun x => x = '-') =
              c :: rest.takeWhile (fun x => x = '-') :=
            List.takeWhile_cons_of_pos (by rw [hc]; decide)
          have hsplit : (c :: rest).takeWhile (fun x => x = '-') ++
              (c :: rest).dropWhile (fun x => x = '-') = c :: rest :=
            List.takeWhile_append_dropWhile _ _
          have hdrop : (c :: rest).drop
              ((c :: rest).takeWhile (fun x => x = '-')).length =
              (c :: rest).dropWhile (fun x => x = '-') := by
            have h := List.drop_left ((c :: rest).takeWhile (fun x => x = '-'))
              ((c :: rest).dropWhile (fun x => x = '-'))
            rwa [hsplit] at h
          have hlens : ((c :: rest).takeWhile (fun x => x = '-')).length +
              ((c :: rest).dropWhile (fun x => x = '-')).length =
              (c :: rest).length := by
            rw [← List.length_append, hsplit]
          have hrun1 : 1 ≤ ((c :: rest).takeWhile (fun x => x = '-')).length := by
            rw [htw]
            simp
          rw [List.flatten_cons, hdrop,
            ih _ _ (by simp only [List.length_cons] at hlens hf ⊢; omega)]
          exact hsplit
        · rw [if_neg h2]
          have hW := wordScanGo_append rest prevRev [c]
          have hne := wordScanGo_ne_nil rest prevRev [c] (by simp)
          simp only [List.reverse_singleton, List.singleton_append] at hW
          have hlen : (wordScanGo prevRev [c] rest).1.length +
              (wordScanGo prevRev [c] rest).2.length = rest.length + 1 := by
            rw [← List.length_append, hW]
            simp
          have h1le : 1 ≤ (wordScanGo prevRev [c] rest).1.length :=
            List.length_pos.mpr hne
          rw [List.flatten_cons,
            ih _ _ (by simp only [List.length_cons] at hf; omega)]
          exact hW

/-- The wordsep scan never emits an empty chunk. -/
theorem splitGoF_no_nil (fuel : Nat) :
    ∀ (prevRev s : List Char), s.length < fuel → [] ∉ splitGoF fuel prevRev s := by
  induction fuel with
  | zero => intro _ s h; omega
  | succ f ih =>
    intro prevRev s hf
    cases s with
    | nil => simp [splitGoF]
    | cons c rest =>
      simp only [splitGoF]
      by_cases h1 : isPyWS c = true
      · rw [if_pos h1]
        intro hm
        rcases List.mem_cons.mp hm with hm | hm
        · rw [List.takeWhile_cons_of_pos h1] at hm
          exact List.cons_ne_nil _ _ hm.symm
        · have hlen : ((c :: rest).drop ((c :: rest).takeWhile isPyWS).length).length
              < f := by
            rw [List.length_drop, List.takeWhile_cons_of_pos h1]
            simp only [List.length_cons] at hf ⊢
            omega
          exact ih _ _ hlen hm
      · rw [if_neg h1]
        by_cases h2 : ((match prevRev with
            | p :: _ => isWP p
            | [] => false) && emDashAhead (c :: rest)) = true
        · rw [if_pos h2]
          have hc : c = '-' := by
            rw [Bool.and_eq_true] at h2
            exact emDashAhead_head c rest h2.2
          have htw : (c :: rest).takeWhile (fun x => x = '-') =
              c :: rest.takeWhile (fun x => x = '-') :=
            List.takeWhile_cons_of_pos (by rw [hc]; decide)
          intro hm
          rcases List.mem_cons.mp hm with hm | hm
          · rw [htw] at hm
            exact List.cons_ne_nil _ _ hm.symm
          · have hlen : ((c :: rest).drop
                ((c :: rest).takeWhile (fun x => x = '-')).length).length < f := by
              rw [List.length_drop, htw]
              simp only [List.length_cons] at hf ⊢
              omega
            exact ih _ _ hlen hm
        · rw [if_neg h2]
          have hW := wordScanGo_append rest prevRev [c]
          have hne := wordScanGo_ne_nil rest prevRev [c] (by simp)
          simp only [List.reverse_singleton, List.singleton_append] at hW
          have hlen : (wordScanGo prevRev [c] rest).1.length +
              (wordScanGo prevRev [c] rest).2.length = rest.length + 1 := by
            rw [← List.length_append, hW]
            simp
          have h1le : 1 ≤ (wordScanGo prevRev [c] rest).1.length :=
            List.length_pos.mpr hne
          intro hm
          rcases List.mem_cons.mp hm with hm | hm
          · exact hne hm.symm
          · exact ih _ _ (by simp only [List.length_cons] at hf; omega) hm

/-- Last element of a flattened chunk list with nonempty chunks. -/
theorem flatten_getLast? (l : List (List Char)) :
    ∀ (hne : l ≠ []), [] ∉ l →
      l.flatten.getLast? = (l.getLast hne).getLast? := by
  induction l with
  | nil => intro hne _; cases hne rfl
  | cons c rest ih =>
    intro hne hnn
    cases rest with
    | nil => simp
    | cons d rest2 =>
      have hne2 : d :: rest2 ≠ [] := by simp
      have hnn2 : [] ∉ d :: rest2 := fun hm => hnn (List.mem_cons_of_mem _ hm)
      have hlast_ne : ((d :: rest2).getLast hne2) ≠ [] := by
        intro hEq
        exact hnn2 (hEq ▸ List.getLast_mem hne2)
      rw [List.flatten_cons, List.getLast?_append, ih hne2 hnn2,
        List.getLast?_eq_getLast _ hlast_ne, List.getLast_cons hne2]
      simp [Option.or]
      exact (List.getLast?_eq_getLast _ hlast_ne).symm

/-- The greedy line filler takes everything when the total fits. -/
theorem takeGreedy_all (w : Nat) (l : List (List Char)) :
    ∀ k, k + sumLen l ≤ w → takeGreedy w k l = (l, []) := by
  induction l with
  | nil => intro k _; rfl
  | cons c rest ih =>
    intro k h
    have hsum : sumLen (c :: rest) = c.length + sumLen rest := by
      simp [sumLen]
    have hc : k + c.length ≤ w := by omega
    simp only [takeGreedy, if_pos hc]
    rw [ih (k + c.length) (by omega)]

/-- Before any line is produced, the leading-whitespace drop is inert. -/
theorem preDrop_true (l : List (List Char)) : preDrop true l = l := by
  cases l <;> simp [preDrop]

/-- C7 counterexample: "hello " is shorter than the default chunkSize 512,
yet chunk_text returns ["hello"], not the input: textwrap drops the
trailing whitespace, so the single segment is not equal to the input
text. -/
theorem c7_counterexample :
    "hello ".data.length < 512 ∧
    chunkText "hello ".data 512 50 ≠ ["hello ".data] := by
  constructor
  · decide
  · decide

/-- C7 amended: for nonempty text shorter than chunkSize whose whitespace
characters are all plain spaces and which does not end in a space,
chunk_text returns exactly one segment equal to the input and applies no
overlap.  (Without these conditions the single segment can differ from the
input: trailing whitespace is dropped, other whitespace characters are
rewritten to spaces, and whitespace-only text yields zero segments.) -/
theorem c7_short_text_amended (text : List Char) (size ov : Nat)
    (hne : text ≠ [])
    (hws : ∀ c ∈ text, isStripWS c = true → c = ' ')
    (hlast : text.getLast? ≠ some ' ')
    (hlen : text.length < size) :
    chunkText text size ov = [text] := by
  have hmunge : munge text = text := munge_id text hws
  have hflat : (splitGoF (text.length + 1) [] text).flatten = text :=
    splitGoF_flatten (text.length + 1) [] text (by omega)
  have hnn : [] ∉ splitGoF (text.length + 1) [] text :=
    splitGoF_no_nil (text.length + 1) [] text (by omega)
  have hpy : pyWrap text size = [text] := by
    unfold pyWrap splitChunks
    rw [hmunge]
    rcases hcs : splitGoF (text.length + 1) [] text with _ | ⟨c, restc⟩
    · rw [hcs] at hflat
      exact absurd hflat.symm hne
    · rw [hcs] at hflat hnn
      have hcs_ne : c :: restc ≠ [] := by simp
      have hsum : sumLen (c :: restc) = text.length := by
        have hlf := List.length_flatten (c :: restc)
        rw [hflat] at hlf
        exact hlf.symm
      have htg : takeGreedy size 0 (c :: restc) = (c :: restc, []) :=
        takeGreedy_all size (c :: restc) 0 (by omega)
      have hlast_chunk : ((c :: restc).getLast hcs_ne) ≠ [] := by
        intro hEq
        exact hnn (hEq ▸ List.getLast_mem hcs_ne)
      have hz : text.getLast? = some (text.getLast hne) :=
        List.getLast?_eq_getLast text hne
      have hzmem : text.getLast hne ∈ text := List.getLast_mem hne
      have hzsp : text.getLast hne ≠ ' ' := by
        intro hEq
        exact hlast (by rw [hz, hEq])
      have hzstrip : isStripWS (text.getLast hne) = false := by
        by_contra hcon
        exact hzsp (hws _ hzmem (by
          revert hcon
          cases isStripWS (text.getLast hne) <;> simp))
      have hlc : ((c :: restc).getLast hcs_ne).getLast? = some (text.getLast hne) := by
        have hfg := flatten_getLast? (c :: restc) hcs_ne hnn
        rw [hflat, hz] at hfg
        exact hfg.symm
      have hzlc : text.getLast hne ∈ (c :: restc).getLast hcs_ne := by
        rw [List.getLast?_eq_getLast _ hlast_chunk] at hlc
        have hm := List.getLast_mem hlast_chunk
        rwa [Option.some_inj.mp hlc] at hm
      have hblank : isBlankChunk ((c :: restc).getLast hcs_ne) = false := by
        by_contra hcon
        have hall : isBlankChunk ((c :: restc).getLast hcs_ne) = true := by
          revert hcon
          cases isBlankChunk ((c :: restc).getLast hcs_ne) <;> simp
        unfold isBlankChunk at hall
        rw [List.all_eq_true] at hall
        rw [hall _ hzlc] at hzstrip
        exact absurd hzstrip (by simp)
      have hdt : dropTailBlank (c :: restc) = c :: restc := by
        unfold dropTailBlank
        rw [List.getLast?_eq_getLast _ hcs_ne]
        simp [hblank]
      have hstep : lineStep size true (c :: restc) = { line := some text, rest := [] } := by
        simp only [lineStep, preDrop_true, htg, handleLong, hdt, hflat]
        rfl
      cases hm : chunksMeasure (c :: restc) + 1 with
      | zero => omega
      | succ m =>
        simp only [wrapGoF, hstep]
  unfold chunkText
  rw [hpy]
  simp

/-- C7 witness: the amended theorem instantiated on a concrete short text,
yielding the single untouched segment. -/
theorem c7_short_text_amended_witness :
    chunkText "hi there".data 512 50 = ["hi there".data] :=
  c7_short_text_amended "hi there".data 512 50 (by decide) (by decide)
    (by decide) (by decide)


/-! Claim C6: word-boundary behaviour of the wrap stage.  On hyphen-free
text the wordsep scan degenerates to the alternating partition into
whitespace runs and words, computed by runsF below. -/

/-- Alternating partition of a text into maximal whitespace runs and maximal
non-whitespace runs (the shape the wordsep scan takes on hyphen-free
text). -/
def runsF : Nat → List Char → List (List Char)
  | 0, _ => []
  | _ + 1, [] => []
  | fuel + 1, c :: rest =>
    if isPyWS c then
      (c :: rest).takeWhile isPyWS :: runsF fuel ((c :: rest).dropWhile isPyWS)
    else
      (c :: rest).takeWhile (fun x => !isPyWS x) ::
        runsF fuel ((c :: rest).dropWhile (fun x => !isPyWS x))

/-- On hyphen-free input an em-dash lookahead never fires. -/
theorem emDashAhead_false (c : Char) (rest : List Char) (hc : c ≠ '-') :
    emDashAhead (c :: rest) = false := by
  unfold emDashAhead
  rw [hyphenRunLen_cons, if_neg hc]
  simp

/-- On hyphen-free input the word scan consumes exactly the maximal
non-whitespace run. -/
theorem wordScanGo_no_hyphen (rest : List Char) :
    ∀ prevRev accRev, '-' ∉ rest →
      wordScanGo prevRev accRev rest =
        (accRev.reverse ++ rest.takeWhile (fun x => !isPyWS x),
         rest.dropWhile (fun x => !isPyWS x)) := by
  induction rest with
  | nil => intro prevRev accRev _; simp [wordScanGo]
  | cons c rest ih =>
    intro prevRev accRev hh
    have hcne : c ≠ '-' := fun hEq => hh (hEq ▸ List.mem_cons_self _ _)
    have hhtl : '-' ∉ rest := fun hm => hh (List.mem_cons_of_mem _ hm)
    simp only [wordScanGo]
    by_cases h1 : isPyWS c = true
    · rw [if_pos h1]
      have hn : (!isPyWS c) = false := by rw [h1]; rfl
      rw [List.takeWhile_cons_of_neg (by simp [hn]),
        List.dropWhile_cons_of_neg (by simp [hn])]
      simp
    · rw [if_neg h1]
      have h2 : (c = '-' && lookBeforeHyphen (accRev ++ prevRev) &&
          lookAfterHyphen rest) = false := by
        simp [hcne]
      rw [h2]
      rw [emDashAhead_false c rest hcne]
      simp only [Bool.and_false, Bool.false_eq_true, if_false]
      rw [ih prevRev (c :: accRev) hhtl]
      have htw2 : (c :: rest).takeWhile (fun x => !isPyWS x) =
          c :: rest.takeWhile (fun x => !isPyWS x) :=
        List.takeWhile_cons_of_pos (by
          show (!isPyWS c) = true
          cases hpy : isPyWS c
          · rfl
          · exact absurd hpy h1)
      have hdw2 : (c :: rest).dropWhile (fun x => !isPyWS x) =
          rest.dropWhile (fun x => !isPyWS x) :=
        List.dropWhile_cons_of_pos (by
          show (!isPyWS c) = true
          cases hpy : isPyWS c
          · rfl
          · exact absurd hpy h1)
      rw [htw2, hdw2]
      simp

/-- On hyphen-free text the wordsep scan computes the alternating runs
partition. -/
theorem splitGoF_eq_runsF (fuel : Nat) :
    ∀ (prevRev s : List Char), '-' ∉ s →
      splitGoF fuel prevRev s = runsF fuel s := by
  induction fuel with
  | zero => intro _ _ _; rfl
  | succ f ih =>
    intro prevRev s hh
    cases s with
    | nil => rfl
    | cons c rest =>
      have hcne : c ≠ '-' := fun hEq => hh (hEq ▸ List.mem_cons_self _ _)
      have hhtl : '-' ∉ rest := fun hm => hh (List.mem_cons_of_mem _ hm)
      simp only [splitGoF, runsF]
      by_cases h1 : isPyWS c = true
      · rw [if_pos h1, if_pos h1]
        have hsplit : (c :: rest).takeWhile isPyWS ++ (c :: rest).dropWhile isPyWS =
            c :: rest := List.takeWhile_append_dropWhile _ _
        have hdrop : (c :: rest).drop ((c :: rest).takeWhile isPyWS).length =
            (c :: rest).dropWhile isPyWS := by
          have h := List.drop_left ((c :: rest).takeWhile isPyWS)
            ((c :: rest).dropWhile isPyWS)
          rwa [hsplit] at h
        rw [hdrop, ih _ _ ?hsub]
        case hsub =>
          intro hm
          apply hh
          rw [← hsplit]
          exact List.mem_append_right _ hm
      · rw [if_neg h1, if_neg h1]
        have h3 : ((match prevRev with
            | p :: _ => isWP p
            | [] => false) && emDashAhead (c :: rest)) = false := by
          rw [emDashAhead_false c rest hcne, Bool.and_false]
        rw [h3]
        simp only [Bool.false_eq_true, if_false]
        rw [wordScanGo_no_hyphen rest prevRev [c] hhtl]
        have htw2 : (c :: rest).takeWhile (fun x => !isPyWS x) =
            c :: rest.takeWhile (fun x => !isPyWS x) :=
          List.takeWhile_cons_of_pos (by
            show (!isPyWS c) = true
            cases hpy : isPyWS c
            · rfl
            · exact absurd hpy h1)
        have hdw2 : (c :: rest).dropWhile (fun x => !isPyWS x) =
            rest.dropWhile (fun x => !isPyWS x) :=
          List.dropWhile_cons_of_pos (by
            show (!isPyWS c) = true
            cases hpy : isPyWS c
            · rfl
            · exact absurd hpy h1)
        rw [htw2, hdw2]
        simp only [List.reverse_singleton, List.singleton_append]
        rw [ih _ _ ?hsub2]
        case hsub2 =>
          intro hm
          exact hhtl (List.Sublist.mem hm (List.dropWhile_sublist _))

/-- Head of a dropWhile remainder fails the predicate. -/
theorem dropWhile_head_false (p : Char → Bool) (s : List Char) :
    ∀ d rest2, s.dropWhile p = d :: rest2 → p d = false := by
  induction s with
  | nil => intro d rest2 h; cases h
  | cons a t ih =>
    intro d rest2 h
    by_cases hp : p a = true
    · rw [List.dropWhile_cons_of_pos hp] at h
      exact ih d rest2 h
    · rw [List.dropWhile_cons_of_neg hp] at h
      obtain ⟨rfl, rfl⟩ := List.cons.inj h
      cases hpa : p a
      · rfl
      · exact absurd hpa hp

/-- Skipping a whitespace prefix leaves the words unchanged. -/
theorem wordsGo_ws_skip (run : List Char) (h : ∀ x ∈ run, isPyWS x = true) :
    ∀ t, wordsGo (run ++ t) [] = wordsGo t [] := by
  induction run with
  | nil => intro t; rfl
  | cons a rs ih =>
    intro t
    have ha : isPyWS a = true := h a (List.mem_cons_self _ _)
    simp only [List.cons_append, wordsGo, ha, if_true, List.isEmpty_nil]
    exact ih (fun x hx => h x (List.mem_cons_of_mem _ hx)) t

/-- Consuming a non-whitespace prefix accumulates it reversed. -/
theorem wordsGo_nonws_accum (word : List Char) (h : ∀ x ∈ word, isPyWS x = false) :
    ∀ t accRev, wordsGo (word ++ t) accRev = wordsGo t (word.reverse ++ accRev) := by
  induction word with
  | nil => intro t accRev; simp
  | cons a ws ih =>
    intro t accRev
    have ha : isPyWS a = false := h a (List.mem_cons_self _ _)
    simp only [List.cons_append, wordsGo, ha, Bool.false_eq_true, if_false,
      List.append_eq]
    rw [ih (fun x hx => h x (List.mem_cons_of_mem _ hx)) t (a :: accRev)]
    congr 1
    simp

/-- A maximal word followed by whitespace (or the end) is emitted whole. -/
theorem wordsGo_word_head (word : List Char) (hne : word ≠ [])
    (h : ∀ x ∈ word, isPyWS x = false) (t : List Char)
    (ht : t = [] ∨ ∃ d t2, t = d :: t2 ∧ isPyWS d = true) :
    wordsGo (word ++ t) [] = word :: wordsGo t [] := by
  rw [wordsGo_nonws_accum word h t []]
  rcases ht with rfl | ⟨d, t2, rfl, hd⟩
  · simp only [wordsGo, List.append_nil]
    rw [if_neg (by simpa using hne)]
    simp
  · simp only [wordsGo, hd, if_true, List.append_nil]
    rw [if_neg (by simpa using hne)]
    simp only [List.reverse_reverse]
    rfl


/-- Empty input has no runs. -/
theorem runsF_nil (fuel : Nat) : runsF fuel [] = [] := by
  cases fuel <;> rfl

/-- A nonempty chunk of non-strippable characters is not blank. -/
theorem isBlankChunk_false_of_word (ch : List Char) (hne : ch ≠ [])
    (h : ∀ x ∈ ch, isStripWS x = false) : isBlankChunk ch = false := by
  cases ch with
  | nil => exact absurd rfl hne
  | cons a t =>
    unfold isBlankChunk
    simp [h a (List.mem_cons_self _ _)]

/-- The runs partition of space-only-whitespace text: every chunk is a
nonempty all-space run or a nonempty non-strippable word, chunk kinds
alternate, and the non-blank chunks are exactly the words of the text. -/
theorem runsF_props (fuel : Nat) :
    ∀ s, s.length < fuel → (∀ c ∈ s, isStripWS c = true → c = ' ') →
      (∀ ch ∈ runsF fuel s, ch ≠ [] ∧
        ((∀ x ∈ ch, x = ' ') ∨ (∀ x ∈ ch, isStripWS x = false))) ∧
      (runsF fuel s).Chain' (fun a b => isBlankChunk a ≠ isBlankChunk b) ∧
      (runsF fuel s).filter (fun ch => !isBlankChunk ch) = wordsOf s := by
  induction fuel with
  | zero => intro s h _; omega
  | succ f ih =>
    intro s hf hws
    cases s with
    | nil =>
      refine ⟨by simp [runsF], by simp [runsF], ?_⟩
      simp [runsF, wordsOf, wordsGo]
    | cons c rest =>
      by_cases h1 : isPyWS c = true
      · have hsplit : (c :: rest).takeWhile isPyWS ++ (c :: rest).dropWhile isPyWS =
            c :: rest := List.takeWhile_append_dropWhile _ _
        have hrun_ne : (c :: rest).takeWhile isPyWS ≠ [] := by
          rw [List.takeWhile_cons_of_pos h1]
          simp
        have hmem_run : ∀ x ∈ (c :: rest).takeWhile isPyWS, x ∈ c :: rest := by
          intro x hx
          rw [← hsplit]
          exact List.mem_append_left _ hx
        have hrun_sp : ∀ x ∈ (c :: rest).takeWhile isPyWS, x = ' ' := by
          intro x hx
          exact hws x (hmem_run x hx)
            (isPyWS_isStripWS x (List.mem_takeWhile_imp hx))
        have hrun_blank : isBlankChunk ((c :: rest).takeWhile isPyWS) = true :=
          isBlankChunk_of_spaces _ hrun_sp
        have hlens : ((c :: rest).takeWhile isPyWS).length +
            ((c :: rest).dropWhile isPyWS).length = (c :: rest).length := by
          rw [← List.length_append, hsplit]
        have hrun1 : 1 ≤ ((c :: rest).takeWhile isPyWS).length :=
          List.length_pos.mpr hrun_ne
        have hlt : ((c :: rest).dropWhile isPyWS).length < f := by
          simp only [List.length_cons] at hlens hf
          omega
        have hws' : ∀ x ∈ (c :: rest).dropWhile isPyWS, isStripWS x = true → x = ' ' := by
          intro x hx
          apply hws
          rw [← hsplit]
          exact List.mem_append_right _ hx
        have ih' := ih ((c :: rest).dropWhile isPyWS) hlt hws'
        have hrF : runsF (f + 1) (c :: rest) =
            (c :: rest).takeWhile isPyWS :: runsF f ((c :: rest).dropWhile isPyWS) := by
          simp only [runsF, if_pos h1]
        rw [hrF]
        refine ⟨?_, ?_, ?_⟩
        · intro ch hch
          rcases List.mem_cons.mp hch with rfl | hch
          · exact ⟨hrun_ne, Or.inl hrun_sp⟩
          · exact ih'.1 ch hch
        · rw [List.chain'_cons']
          refine ⟨?_, ih'.2.1⟩
          intro b hb
          rcases hd : (c :: rest).dropWhile isPyWS with _ | ⟨d, rest2⟩
          · rw [hd, runsF_nil] at hb
            simp at hb
          · have hdf : isPyWS d = false := dropWhile_head_false isPyWS (c :: rest) d rest2 hd
            rcases f with _ | f'
            · omega
            · rw [hd] at hb
              simp only [runsF, hdf, Bool.false_eq_true, if_false, List.head?_cons,
                Option.mem_def, Option.some_inj] at hb
              subst hb
              have hw_ne : (d :: rest2).takeWhile (fun x => !isPyWS x) ≠ [] := by
                rw [List.takeWhile_cons_of_pos (by simp [hdf])]
                simp
              have hw_nonstrip : ∀ x ∈ (d :: rest2).takeWhile (fun x => !isPyWS x),
                  isStripWS x = false := by
                intro x hx
                have hxpy : isPyWS x = false := by
                  have := List.mem_takeWhile_imp hx
                  simpa using this
                have hxmem : x ∈ d :: rest2 :=
                  List.Sublist.mem hx (List.takeWhile_sublist _)
                by_contra hcon
                have hxs : isStripWS x = true := by
                  cases hv : isStripWS x
                  · exact absurd hv hcon
                  · rfl
                have := hws' x (hd ▸ hxmem) hxs
                rw [this] at hxpy
                exact absurd hxpy (by decide)
              rw [hrun_blank, isBlankChunk_false_of_word _ hw_ne hw_nonstrip]
              simp
        · rw [List.filter_cons]
          simp only [hrun_blank, Bool.not_true, Bool.false_eq_true, if_false]
          rw [ih'.2.2]
          unfold wordsOf
          conv_rhs => rw [← hsplit]
          rw [wordsGo_ws_skip _ (fun x hx => List.mem_takeWhile_imp hx)]
      · have hp : (!isPyWS c) = true := by
          cases hpy : isPyWS c
          · rfl
          · exact absurd hpy h1
        have hsplit : (c :: rest).takeWhile (fun x => !isPyWS x) ++
            (c :: rest).dropWhile (fun x => !isPyWS x) = c :: rest :=
          List.takeWhile_append_dropWhile _ _
        have htwc : (c :: rest).takeWhile (fun x => !isPyWS x) =
            c :: rest.takeWhile (fun x => !isPyWS x) :=
          List.takeWhile_cons_of_pos hp
        have hword_ne : (c :: rest).takeWhile (fun x => !isPyWS x) ≠ [] := by
          rw [htwc]
          simp
        have hmem_word : ∀ x ∈ (c :: rest).takeWhile (fun x => !isPyWS x),
            x ∈ c :: rest := by
          intro x hx
          rw [← hsplit]
          exact List.mem_append_left _ hx
        have hword_py : ∀ x ∈ (c :: rest).takeWhile (fun x => !isPyWS x),
            isPyWS x = false := by
          intro x hx
          have := List.mem_takeWhile_imp hx
          simpa using this
        have hword_nonstrip : ∀ x ∈ (c :: rest).takeWhile (fun x => !isPyWS x),
            isStripWS x = false := by
          intro x hx
          by_contra hcon
          have hxs : isStripWS x = true := by
            cases hv : isStripWS x
            · exact absurd hv hcon
            · rfl
          have hsp := hws x (hmem_word x hx) hxs
          have := hword_py x hx
          rw [hsp] at this
          exact absurd this (by decide)
        have hword_blank : isBlankChunk ((c :: rest).takeWhile (fun x => !isPyWS x)) = false :=
          isBlankChunk_false_of_word _ hword_ne hword_nonstrip
        have hlens : ((c :: rest).takeWhile (fun x => !isPyWS x)).length +
            ((c :: rest).dropWhile (fun x => !isPyWS x)).length = (c :: rest).length := by
          rw [← List.length_append, hsplit]
        have hrun1 : 1 ≤ ((c :: rest).takeWhile (fun x => !isPyWS x)).length :=
          List.length_pos.mpr hword_ne
        have hlt : ((c :: rest).dropWhile (fun x => !isPyWS x)).length < f := by
          simp only [List.length_cons] at hlens hf
          omega
        have hws' : ∀ x ∈ (c :: rest).dropWhile (fun x => !isPyWS x),
            isStripWS x = true → x = ' ' := by
          intro x hx
          apply hws
          rw [← hsplit]
          exact List.mem_append_right _ hx
        have ih' := ih ((c :: rest).dropWhile (fun x => !isPyWS x)) hlt hws'
        have hrF : runsF (f + 1) (c :: rest) =
            (c :: rest).takeWhile (fun x => !isPyWS x) ::
              runsF f ((c :: rest).dropWhile (fun x => !isPyWS x)) := by
          simp only [runsF, h1, Bool.false_eq_true, if_false]
        rw [hrF]
        refine ⟨?_, ?_, ?_⟩
        · intro ch hch
          rcases List.mem_cons.mp hch with rfl | hch
          · exact ⟨hword_ne, Or.inr hword_nonstrip⟩
          · exact ih'.1 ch hch
        · rw [List.chain'_cons']
          refine ⟨?_, ih'.2.1⟩
          intro b hb
          rcases hd : (c :: rest).dropWhile (fun x => !isPyWS x) with _ | ⟨d, rest2⟩
          · rw [hd, runsF_nil] at hb
            simp at hb
          · have hdf : (!isPyWS d) = false :=
              dropWhile_head_false (fun x => !isPyWS x) (c :: rest) d rest2 hd
            have hdt : isPyWS d = true := by
              cases hv : isPyWS d
              · rw [hv] at hdf; exact absurd hdf (by decide)
              · rfl
            rcases f with _ | f'
            · omega
            · rw [hd] at hb
              simp only [runsF, hdt, if_true, List.head?_cons,
                Option.mem_def, Option.some_inj] at hb
              subst hb
              have hws_run_sp : ∀ x ∈ (d :: rest2).takeWhile isPyWS, x = ' ' := by
                intro x hx
                have hxmem : x ∈ d :: rest2 :=
                  List.Sublist.mem hx (List.takeWhile_sublist _)
                exact hws' x (hd ▸ hxmem)
                  (isPyWS_isStripWS x (List.mem_takeWhile_imp hx))
              rw [hword_blank, isBlankChunk_of_spaces _ hws_run_sp]
              simp
        · rw [List.filter_cons]
          simp only [hword_blank, Bool.not_false, if_true]
          rw [ih'.2.2]
          unfold wordsOf
          conv_rhs => rw [← hsplit]
          rw [wordsGo_word_head _ hword_ne hword_py _ ?hrest]
          case hrest =>
            rcases hd : (c :: rest).dropWhile (fun x => !isPyWS x) with _ | ⟨d, rest2⟩
            · exact Or.inl rfl
            · refine Or.inr ⟨d, rest2, rfl, ?_⟩
              have hdf : (!isPyWS d) = false :=
                dropWhile_head_false (fun x => !isPyWS x) (c :: rest) d rest2 hd
              cases hv : isPyWS d
              · rw [hv] at hdf; exact absurd hdf (by decide)
              · rfl


/-- Sum of chunk lengths over a cons. -/
theorem sumLen_cons (c : List Char) (l : List (List Char)) :
    sumLen (c :: l) = c.length + sumLen l := by
  simp [sumLen]

/-- Sum of chunk lengths over an append. -/
theorem sumLen_append (a b : List (List Char)) :
    sumLen (a ++ b) = sumLen a + sumLen b := by
  simp [sumLen]

/-- The greedy filler splits its input. -/
theorem takeGreedy_append (w : Nat) (l : List (List Char)) :
    ∀ k, (takeGreedy w k l).1 ++ (takeGreedy w k l).2 = l := by
  induction l with
  | nil => intro k; rfl
  | cons c rest ih =>
    intro k
    simp only [takeGreedy]
    by_cases h : k + c.length ≤ w
    · rw [if_pos h]
      simpa using ih (k + c.length)
    · rw [if_neg h]
      rfl

/-- The greedy filler never exceeds the width. -/
theorem takeGreedy_bound (w : Nat) (l : List (List Char)) :
    ∀ k, k ≤ w → k + sumLen (takeGreedy w k l).1 ≤ w := by
  induction l with
  | nil => intro k hk; simpa [takeGreedy, sumLen] using hk
  | cons c rest ih =>
    intro k hk
    simp only [takeGreedy]
    by_cases h : k + c.length ≤ w
    · rw [if_pos h]
      have := ih (k + c.length) h
      simp only [sumLen_cons]
      omega
    · rw [if_neg h]
      simpa [sumLen] using hk

/-- When the greedy filler stops with a remainder, its head chunk does not
fit. -/
theorem takeGreedy_nofit (w : Nat) (l : List (List Char)) :
    ∀ k c r, (takeGreedy w k l).2 = c :: r →
      w < k + sumLen (takeGreedy w k l).1 + c.length := by
  induction l with
  | nil => intro k c r h; cases h
  | cons d rest ih =>
    intro k c r h
    simp only [takeGreedy] at h ⊢
    by_cases hfit : k + d.length ≤ w
    · rw [if_pos hfit] at h ⊢
      have := ih (k + d.length) c r (by simpa using h)
      simp only [sumLen_cons]
      omega
    · rw [if_neg hfit] at h ⊢
      cases h
      simp only [sumLen]
      omega

/-- Any index found by the bounded hyphen search lies below the bound. -/
theorem rfindHyphenGo_lt (c : List Char) :
    ∀ i bound acc, (∀ a, acc = some a → a < bound) →
      ∀ h, rfindHyphenGo c i bound acc = some h → h < bound := by
  induction c with
  | nil => intro i bound acc hacc h hr; exact hacc h hr
  | cons x rest ih =>
    intro i bound acc hacc h hr
    simp only [rfindHyphenGo] at hr
    by_cases hi : i < bound
    · rw [if_pos hi] at hr
      refine ih (i + 1) bound _ ?_ h hr
      intro a ha
      by_cases hx : x = '-'
      · rw [if_pos hx] at ha
        cases ha
        exact hi
      · rw [if_neg hx] at ha
        exact hacc a ha
    · rw [if_neg hi] at hr
      exact hacc h hr

/-- The long-word break point never exceeds the remaining space. -/
theorem handleEnd_le (c : List Char) (sl : Nat) : handleEnd c sl ≤ sl := by
  unfold handleEnd
  by_cases h1 : sl < c.length
  · rw [if_pos h1]
    rcases hr : rfindHyphen c sl with _ | h
    · exact le_refl _
    · have hlt : h < sl := rfindHyphenGo_lt c 0 sl none (by intro a ha; cases ha) h hr
      dsimp only
      by_cases h2 : (0 < h && (c.take h).any (fun x => x ≠ '-')) = true
      · rw [if_pos h2]
        omega
      · rw [if_neg h2]
  · rw [if_neg h1]

/-- Dropping a trailing blank chunk never changes the non-blank chunks. -/
theorem filter_dropTailBlank (x : List (List Char)) :
    (dropTailBlank x).filter (fun ch => !isBlankChunk ch) =
      x.filter (fun ch => !isBlankChunk ch) := by
  unfold dropTailBlank
  rcases hgl : x.getLast? with _ | c
  · rw [List.getLast?_eq_none_iff] at hgl
    subst hgl
    rfl
  · have hne : x ≠ [] := by
      intro h
      subst h
      simp at hgl
    have hc : x.getLast hne = c := by
      rw [List.getLast?_eq_getLast x hne] at hgl
      exact Option.some_inj.mp hgl
    dsimp only
    by_cases hbl : isBlankChunk c = true
    · rw [if_pos hbl]
      have hx : x.dropLast ++ [c] = x := by
        rw [← hc]
        exact List.dropLast_append_getLast hne
      conv_rhs => rw [← hx]
      rw [List.filter_append, List.filter_cons]
      simp [hbl]
    · rw [if_neg hbl]

/-- Dropping a trailing blank chunk never increases the total length. -/
theorem sumLen_dropTailBlank (x : List (List Char)) :
    sumLen (dropTailBlank x) ≤ sumLen x := by
  unfold dropTailBlank
  rcases hgl : x.getLast? with _ | c
  · rw [List.getLast?_eq_none_iff] at hgl
    subst hgl
    simp [sumLen]
  · have hne : x ≠ [] := by
      intro h
      subst h
      simp at hgl
    have hc : x.getLast hne = c := by
      rw [List.getLast?_eq_getLast x hne] at hgl
      exact Option.some_inj.mp hgl
    dsimp only
    by_cases hbl : isBlankChunk c = true
    · rw [if_pos hbl]
      have hx : x.dropLast ++ [c] = x := by
        rw [← hc]
        exact List.dropLast_append_getLast hne
      conv_rhs => rw [← hx]
      rw [sumLen_append]
      omega
    · rw [if_neg hbl]

/-- Elements surviving the trailing-blank drop come from the input. -/
theorem mem_dropTailBlank (x : List (List Char)) :
    ∀ ch ∈ dropTailBlank x, ch ∈ x := by
  unfold dropTailBlank
  rcases hgl : x.getLast? with _ | c
  · intro ch hch
    simp at hch
  · dsimp only
    by_cases hbl : isBlankChunk c = true
    · rw [if_pos hbl]
      intro ch hch
      exact List.Sublist.mem hch (List.dropLast_sublist x)
    · rw [if_neg hbl]
      intro ch hch
      exact hch

/-- A chain survives dropping the last element. -/
theorem chain'_dropLast {α : Type} {R : α → α → Prop} (x : List α)
    (h : x.Chain' R) : x.dropLast.Chain' R := by
  rcases hx : x.getLast? with _ | c
  · rw [List.getLast?_eq_none_iff] at hx
    subst hx
    simp
  · have hne : x ≠ [] := by
      intro hEq
      subst hEq
      simp at hx
    have hsplit : x.dropLast ++ [x.getLast hne] = x :=
      List.dropLast_append_getLast hne
    rw [← hsplit] at h
    exact (List.chain'_append.mp h).1

/-- A chain survives the trailing-blank drop. -/
theorem chain'_dropTailBlank (x : List (List Char))
    (h : x.Chain' (fun a b => isBlankChunk a ≠ isBlankChunk b)) :
    (dropTailBlank x).Chain' (fun a b => isBlankChunk a ≠ isBlankChunk b) := by
  unfold dropTailBlank
  rcases hgl : x.getLast? with _ | c
  · simp
  · dsimp only
    by_cases hbl : isBlankChunk c = true
    · rw [if_pos hbl]
      exact chain'_dropLast x h
    · rw [if_neg hbl]
      exact h

/-- Dropping a trailing blank after appending one restores the front. -/
theorem dropTailBlank_append_blank (cur : List (List Char)) (t : List Char)
    (ht : isBlankChunk t = true) : dropTailBlank (cur ++ [t]) = cur := by
  unfold dropTailBlank
  rw [List.getLast?_concat]
  dsimp only
  rw [if_pos ht, List.dropLast_concat]

/-- Words of a flattened alternating chunk list are its non-blank chunks. -/
theorem wordsOf_flatten_alt (l : List (List Char)) :
    (∀ ch ∈ l, ch ≠ [] ∧ ((∀ x ∈ ch, x = ' ') ∨ (∀ x ∈ ch, isStripWS x = false))) →
    l.Chain' (fun a b => isBlankChunk a ≠ isBlankChunk b) →
    wordsOf l.flatten = l.filter (fun ch => !isBlankChunk ch) := by
  induction l with
  | nil => intro _ _; rfl
  | cons ch rest ih =>
    intro h1 h2
    have hch := h1 ch (List.mem_cons_self _ _)
    have h1' : ∀ c ∈ rest, c ≠ [] ∧ ((∀ x ∈ c, x = ' ') ∨ (∀ x ∈ c, isStripWS x = false)) :=
      fun c hc => h1 c (List.mem_cons_of_mem _ hc)
    have h2' := (List.chain'_cons'.mp h2).2
    rcases hch.2 with hsp | hnst
    · have hbl : isBlankChunk ch = true := isBlankChunk_of_spaces ch hsp
      rw [List.flatten_cons, List.filter_cons]
      simp only [hbl, Bool.not_true, Bool.false_eq_true, if_false]
      unfold wordsOf at ih ⊢
      rw [wordsGo_ws_skip ch (fun x hx => by rw [hsp x hx]; decide)]
      exact ih h1' h2'
    · have hbl : isBlankChunk ch = false := isBlankChunk_false_of_word ch hch.1 hnst
      rw [List.flatten_cons, List.filter_cons]
      simp only [hbl, Bool.not_false, if_true]
      have hpy : ∀ x ∈ ch, isPyWS x = false := by
        intro x hx
        cases hv : isPyWS x
        · rfl
        · have hst := isPyWS_isStripWS x hv
          rw [hnst x hx] at hst
          exact absurd hst (by simp)
      unfold wordsOf at ih ⊢
      rw [wordsGo_word_head ch hch.1 hpy _ ?ht]
      · rw [ih h1' h2']
      case ht =>
        rcases rest with _ | ⟨r0, rest2⟩
        · exact Or.inl (by simp)
        · have hr0 := h1 r0 (by simp)
          have hrel := (List.chain'_cons'.mp h2).1 r0 (by simp)
          have hr0bl : isBlankChunk r0 = true := by
            rw [hbl] at hrel
            cases hv : isBlankChunk r0
            · rw [hv] at hrel
              exact absurd rfl hrel
            · rfl
          rcases hr0.2 with hsp0 | hnst0
          · obtain ⟨x0, r0t, rfl⟩ := List.exists_cons_of_ne_nil hr0.1
            refine Or.inr ⟨x0, r0t ++ rest2.flatten, by simp, ?_⟩
            rw [hsp0 x0 (by simp)]
            decide
          · exact absurd (isBlankChunk_false_of_word r0 hr0.1 hnst0)
              (by rw [hr0bl]; simp)


/-- Well-formed chunk for the wrap loop at width w: nonempty, and either an
all-space run or a non-strippable word no wider than the line. -/
def ChunkOk (w : Nat) (ch : List Char) : Prop :=
  ch ≠ [] ∧ ((∀ x ∈ ch, x = ' ') ∨ ((∀ x ∈ ch, isStripWS x = false) ∧ ch.length ≤ w))

/-- Invariant of the wrap loop: well-formed chunks of alternating kind. -/
def GoodChunks (w : Nat) (l : List (List Char)) : Prop :=
  (∀ ch ∈ l, ChunkOk w ch) ∧ l.Chain' (fun a b => isBlankChunk a ≠ isBlankChunk b)

/-- One chunk's measure contribution. -/
theorem chunksMeasure_cons (c : List Char) (l : List (List Char)) :
    chunksMeasure (c :: l) = c.length + 1 + chunksMeasure l := by
  simp [chunksMeasure, sumLen]
  omega

/-- Measure distributes over append. -/
theorem chunksMeasure_append (a b : List (List Char)) :
    chunksMeasure (a ++ b) = chunksMeasure a + chunksMeasure b := by
  simp [chunksMeasure, sumLen]
  omega

/-- A nonempty chunk list has positive measure. -/
theorem chunksMeasure_pos (l : List (List Char)) (h : l ≠ []) :
    1 ≤ chunksMeasure l := by
  cases l with
  | nil => exact absurd rfl h
  | cons c rest =>
    rw [chunksMeasure_cons]
    omega

/-- The long-word break point is positive when there is room on the line. -/
theorem handleEnd_pos (c : List Char) (sl : Nat) (h1 : 1 ≤ sl)
    (h2 : sl < c.length) : 1 ≤ handleEnd c sl := by
  unfold handleEnd
  rw [if_pos h2]
  rcases hr : rfindHyphen c sl with _ | h
  · exact h1
  · dsimp only
    by_cases hc : (0 < h && (c.take h).any (fun x => x ≠ '-')) = true
    · rw [if_pos hc]
      omega
    · rw [if_neg hc]
      exact h1

/-- Flattening realizes the summed length. -/
theorem sumLen_eq_length_flatten (l : List (List Char)) :
    l.flatten.length = sumLen l := by
  simp [sumLen, List.length_flatten]

/-- Emitting one line from the accumulated chunks: its words are the
non-blank chunks and its length is their summed length. -/
theorem flattenLine_spec (w : Nat) (cur : List (List Char))
    (hok : ∀ ch ∈ cur, ChunkOk w ch)
    (hchain : cur.Chain' (fun a b => isBlankChunk a ≠ isBlankChunk b)) :
    ((if cur.isEmpty then (none : Option (List Char)) else some cur.flatten).elim []
        wordsOf = cur.filter (fun ch => !isBlankChunk ch)) ∧
    (∀ ln, (if cur.isEmpty then (none : Option (List Char)) else some cur.flatten) =
        some ln → ln.length = sumLen cur) := by
  cases hemp : cur.isEmpty
  · simp only [hemp, Bool.false_eq_true, if_false]
    constructor
    · simp only [Option.elim]
      exact wordsOf_flatten_alt cur
        (fun ch hch => ⟨(hok ch hch).1, Or.imp_right And.left (hok ch hch).2⟩) hchain
    · intro ln hln
      cases hln
      exact sumLen_eq_length_flatten cur
  · simp only [hemp, if_true]
    have hn : cur = [] := List.isEmpty_iff.mp hemp
    subst hn
    exact ⟨rfl, by intro ln h; cases h⟩

/-- One iteration of the wrap loop on good chunks: the remainder stays good
and strictly smaller, the emitted words are accounted exactly, and any
emitted line fits the width. -/
theorem lineStep_spec (w : Nat) (first : Bool) (l : List (List Char))
    (hw : 1 ≤ w) (hg : GoodChunks w l) (hne : l ≠ []) :
    GoodChunks w (lineStep w first l).rest ∧
    chunksMeasure (lineStep w first l).rest < chunksMeasure l ∧
    ((lineStep w first l).line.elim [] wordsOf ++
      (lineStep w first l).rest.filter (fun ch => !isBlankChunk ch) =
      l.filter (fun ch => !isBlankChunk ch)) ∧
    (∀ ln, (lineStep w first l).line = some ln → ln.length ≤ w) := by
  have hpre : GoodChunks w (preDrop first l) ∧
      (preDrop first l).filter (fun ch => !isBlankChunk ch) =
        l.filter (fun ch => !isBlankChunk ch) ∧
      (chunksMeasure (preDrop first l) < chunksMeasure l ∨ preDrop first l = l) := by
    unfold preDrop
    cases l with
    | nil => exact absurd rfl hne
    | cons c restl =>
      dsimp only
      by_cases hcond : (!first && isBlankChunk c) = true
      · rw [if_pos hcond]
        have hcb : isBlankChunk c = true := by
          rw [Bool.and_eq_true] at hcond
          exact hcond.2
        refine ⟨⟨fun ch hch => hg.1 ch (List.mem_cons_of_mem _ hch),
          (List.chain'_cons'.mp hg.2).2⟩, ?_, ?_⟩
        · rw [List.filter_cons]
          simp [hcb]
        · left
          rw [chunksMeasure_cons]
          omega
      · rw [if_neg hcond]
        exact ⟨hg, rfl, Or.inr rfl⟩
  obtain ⟨hg1, hfilt1, hmeas1⟩ := hpre
  simp only [lineStep]
  set l1 := preDrop first l with hl1def
  set cur := (takeGreedy w 0 l1).1 with hcurdef
  set rest := (takeGreedy w 0 l1).2 with hrestdef
  have hsplit : cur ++ rest = l1 := takeGreedy_append w l1 0
  have hcurlen : sumLen cur ≤ w := by
    have := takeGreedy_bound w l1 0 (Nat.zero_le w)
    rw [← hcurdef] at this
    omega
  have hcur_ok : ∀ ch ∈ cur, ChunkOk w ch := by
    intro ch hch
    exact hg1.1 ch (hsplit ▸ List.mem_append_left _ hch)
  have hrest_ok : ∀ ch ∈ rest, ChunkOk w ch := by
    intro ch hch
    exact hg1.1 ch (hsplit ▸ List.mem_append_right _ hch)
  have hchainsplit : (cur ++ rest).Chain' (fun a b => isBlankChunk a ≠ isBlankChunk b) := by
    rw [hsplit]
    exact hg1.2
  have hchain_cur := (List.chain'_append.mp hchainsplit).1
  have hchain_rest := (List.chain'_append.mp hchainsplit).2.1
  have hfiltsplit : l1.filter (fun ch => !isBlankChunk ch) =
      cur.filter (fun ch => !isBlankChunk ch) ++ rest.filter (fun ch => !isBlankChunk ch) := by
    rw [← hsplit, List.filter_append]
  have hmeassplit : chunksMeasure l1 = chunksMeasure cur + chunksMeasure rest := by
    rw [← hsplit, chunksMeasure_append]
  rcases hresteq : rest with _ | ⟨c, r⟩
  · -- no remaining chunk: the long-word handler is inert
    rw [hresteq] at hrest_ok hchain_rest hfiltsplit hmeassplit
    simp only [handleLong]
    have hfl := flattenLine_spec w (dropTailBlank cur)
      (fun ch hch => hcur_ok ch (mem_dropTailBlank cur ch hch))
      (chain'_dropTailBlank cur hchain_cur)
    refine ⟨⟨fun ch hch => absurd hch (List.not_mem_nil ch), List.chain'_nil⟩,
      ?_, ?_, ?_⟩
    · have hlpos : 1 ≤ chunksMeasure l := chunksMeasure_pos l hne
      have h0 : chunksMeasure ([] : List (List Char)) = 0 := rfl
      omega
    · rw [hfl.1, filter_dropTailBlank, ← hfiltsplit, hfilt1]
    · intro ln hln
      have := hfl.2 ln hln
      have hd := sumLen_dropTailBlank cur
      omega
  · -- a chunk remains: long-word handling may fire
    rw [hresteq] at hrest_ok hchain_rest hfiltsplit hmeassplit
    have hc_ok := hrest_ok c (List.mem_cons_self _ _)
    by_cases hlong : w < c.length
    · -- the chunk is wider than the line: it must be an all-space run
      have hcsp : ∀ x ∈ c, x = ' ' := by
        rcases hc_ok.2 with hsp | ⟨_, hlen⟩
        · exact hsp
        · omega
      have hcb : isBlankChunk c = true := isBlankChunk_of_spaces c hcsp
      simp only [handleLong, if_pos hlong]
      rw [if_neg (by omega : ¬ w < 1)]
      set e := handleEnd c (w - sumLen cur) with hedef
      have he_le : e ≤ w - sumLen cur := handleEnd_le c (w - sumLen cur)
      have he_lt : e < c.length := by omega
      have htake_sp : ∀ x ∈ c.take e, x = ' ' :=
        fun x hx => hcsp x (List.mem_of_mem_take hx)
      have htake_bl : isBlankChunk (c.take e) = true :=
        isBlankChunk_of_spaces _ htake_sp
      have hdrop_sp : ∀ x ∈ c.drop e, x = ' ' :=
        fun x hx => hcsp x (List.mem_of_mem_drop hx)
      have hdrop_bl : isBlankChunk (c.drop e) = true :=
        isBlankChunk_of_spaces _ hdrop_sp
      have hdrop_ne : c.drop e ≠ [] := by
        have : (c.drop e).length = c.length - e := List.length_drop e c
        intro hEq
        rw [hEq] at this
        simp at this
        omega
      have hcur3 : dropTailBlank (cur ++ [c.take e]) = cur :=
        dropTailBlank_append_blank cur (c.take e) htake_bl
      rw [hcur3]
      obtain ⟨hrel, hchr⟩ := List.chain'_cons'.mp hchain_rest
      have hfl := flattenLine_spec w cur hcur_ok hchain_cur
      refine ⟨⟨?_, ?_⟩, ?_, ?_, ?_⟩
      · intro ch hch
        rcases List.mem_cons.mp hch with rfl | hch
        · exact ⟨hdrop_ne, Or.inl hdrop_sp⟩
        · exact hrest_ok ch (List.mem_cons_of_mem _ hch)
      · rw [List.chain'_cons']
        refine ⟨?_, hchr⟩
        intro b hb
        rw [hdrop_bl]
        have := hrel b hb
        rwa [hcb] at this
      · -- measure strictly decreases
        have hm2 : chunksMeasure (c.drop e :: r) =
            (c.length - e) + 1 + chunksMeasure r := by
          rw [chunksMeasure_cons, List.length_drop]
        have hmc : chunksMeasure (c :: r) = c.length + 1 + chunksMeasure r :=
          chunksMeasure_cons c r
        by_cases hcur_ne : cur = []
        · -- nothing fit: the handler must make progress
          have hsum0 : sumLen cur = 0 := by rw [hcur_ne]; rfl
          have he_pos : 1 ≤ e := by
            rw [hedef, hsum0, Nat.sub_zero]
            exact handleEnd_pos c w hw hlong
          have hmeq : chunksMeasure cur = 0 := by rw [hcur_ne]; rfl
          rcases hmeas1 with hlt | hEq
          · omega
          · have hml : chunksMeasure l = chunksMeasure cur + chunksMeasure (c :: r) := by
              rw [← hEq]
              exact hmeassplit
            omega
        · have hcpos : 1 ≤ chunksMeasure cur := chunksMeasure_pos cur hcur_ne
          rcases hmeas1 with hlt | hEq
          · omega
          · have hml : chunksMeasure l = chunksMeasure cur + chunksMeasure (c :: r) := by
              rw [← hEq]
              exact hmeassplit
            omega
      · rw [hfl.1]
        rw [← hfilt1, hfiltsplit, List.filter_cons, List.filter_cons]
        simp [hcb, hdrop_bl]
      · intro ln hln
        have := hfl.2 ln hln
        omega
    · -- the chunk fits on some line: no handling
      simp only [handleLong, if_neg hlong]
      have hfl := flattenLine_spec w (dropTailBlank cur)
        (fun ch hch => hcur_ok ch (mem_dropTailBlank cur ch hch))
        (chain'_dropTailBlank cur hchain_cur)
      refine ⟨⟨hrest_ok, hchain_rest⟩, ?_, ?_, ?_⟩
      · -- measure: the greedy filler must have taken something
        have hcur_ne : cur ≠ [] := by
          intro hEq
          have hnofit := takeGreedy_nofit w l1 0 c r (by rw [← hrestdef, hresteq])
          rw [← hcurdef, hEq] at hnofit
          simp [sumLen] at hnofit
          omega
        have hcpos : 1 ≤ chunksMeasure cur := chunksMeasure_pos cur hcur_ne
        rcases hmeas1 with hlt | hEq
        · omega
        · have hml : chunksMeasure l = chunksMeasure cur + chunksMeasure (c :: r) := by
            rw [← hEq]
            exact hmeassplit
          omega
      · rw [hfl.1, filter_dropTailBlank]
        rw [← hfilt1, hfiltsplit]
      · intro ln hln
        have := hfl.2 ln hln
        have hd := sumLen_dropTailBlank cur
        omega


/-- The wrap loop on good chunks: all words survive in order, none is ever
broken, and every line fits the width. -/
theorem wrapGoF_good (fuel : Nat) :
    ∀ (w : Nat) (first : Bool) (l : List (List Char)), 1 ≤ w → GoodChunks w l →
      chunksMeasure l < fuel →
      ((wrapGoF fuel w first l).flatMap wordsOf =
        l.filter (fun ch => !isBlankChunk ch)) ∧
      (∀ seg ∈ wrapGoF fuel w first l, seg.length ≤ w) := by
  induction fuel with
  | zero => intro w first l _ _ h; omega
  | succ f ih =>
    intro w first l hw hg hf
    cases l with
    | nil =>
      constructor
      · rfl
      · intro seg hseg
        simp [wrapGoF] at hseg
    | cons c r =>
      have hspec := lineStep_spec w first (c :: r) hw hg (by simp)
      have hfuel : chunksMeasure (lineStep w first (c :: r)).rest < f := by
        have h1 := hspec.2.1
        have h2 : chunksMeasure (c :: r) < f + 1 := hf
        omega
      simp only [wrapGoF]
      rcases hline : (lineStep w first (c :: r)).line with _ | ln
      · simp only [hline]
        have hih := ih w first (lineStep w first (c :: r)).rest hw hspec.1 hfuel
        constructor
        · rw [hih.1]
          have hwords := hspec.2.2.1
          rw [hline] at hwords
          simpa using hwords
        · exact hih.2
      · simp only [hline]
        have hih := ih w false (lineStep w first (c :: r)).rest hw hspec.1 hfuel
        constructor
        · rw [List.flatMap_cons, hih.1]
          have hwords := hspec.2.2.1
          rw [hline] at hwords
          simpa using hwords
        · intro seg hseg
          rcases List.mem_cons.mp hseg with rfl | hseg
          · exact hspec.2.2.2 seg hline
          · exact hih.2 seg hseg

/-- C6 counterexample: a word longer than chunkSize is broken mid-word by
the wrap (break_long_words): wrapping "abcdef" at width 5 yields segments
whose words are "abcde" and "f", not the original word — so the split does
not break only at whitespace boundaries. -/
theorem c6_counterexample :
    ¬ ((pyWrap "abcdef".data 5).flatMap wordsOf = wordsOf "abcdef".data) := by
  decide

/-- C6 amended: the wrap stage of chunk_text breaks only at whitespace
boundaries — the concatenation of the words of its segments is exactly the
word sequence of the text — provided chunkSize is positive, the text's
whitespace is plain spaces, the text has no hyphen (textwrap also breaks
after hyphens), and no word exceeds chunkSize (longer words are broken
mid-word); and every segment is at most chunkSize characters. -/
theorem c6_wordwrap_amended (text : List Char) (size : Nat) (h1 : 1 ≤ size)
    (hws : ∀ c ∈ text, isStripWS c = true → c = ' ')
    (hhy : '-' ∉ text)
    (hwords : ∀ word ∈ wordsOf text, word.length ≤ size) :
    ((pyWrap text size).flatMap wordsOf = wordsOf text) ∧
    (∀ seg ∈ pyWrap text size, seg.length ≤ size) := by
  unfold pyWrap splitChunks
  rw [munge_id text hws]
  rw [splitGoF_eq_runsF (text.length + 1) [] text hhy]
  have hprops := runsF_props (text.length + 1) text (by omega) hws
  have hgood : GoodChunks size (runsF (text.length + 1) text) := by
    constructor
    · intro ch hch
      rcases hprops.1 ch hch with ⟨hchne, hsp | hnst⟩
      · exact ⟨hchne, Or.inl hsp⟩
      · refine ⟨hchne, Or.inr ⟨hnst, ?_⟩⟩
        apply hwords
        rw [← hprops.2.2]
        refine List.mem_filter.mpr ⟨hch, ?_⟩
        rw [isBlankChunk_false_of_word ch hchne hnst]
        rfl
    · exact hprops.2.1
  have hmain := wrapGoF_good
      (chunksMeasure (runsF (text.length + 1) text) + 1) size true
      (runsF (text.length + 1) text) h1 hgood (by omega)
  rw [hprops.2.2] at hmain
  exact hmain

/-- C6 witness: the amended theorem instantiated on the spec's example text
at width 10: the wrapped segments preserve the words exactly. -/
theorem c6_wordwrap_amended_witness :
    (pyWrap "the quick brown fox jumps over".data 10).flatMap wordsOf =
      wordsOf "the quick brown fox jumps over".data :=
  (c6_wordwrap_amended "the quick brown fox jumps over".data 10 (by decide)
    (by decide) (by decide) (by decide)).1

end NV
